import Mathlib

/-!
# Completion tracker (`src/proxy/tracker.h`)

A shallow embedding of `proxy::Tracker`: the list of tracked entries, admission
(`Alloc`), activation (`Enable*`), the completion callback (`Handler`,
`Complete`, `HandleEntry`), removal (`Delete`) and the singleton lifecycle
(`Create`, `Destroy`, the destructor).

Conventions of the embedding.

* An `entry_t*` is modelled by the entry itself together with its address
  (`ptr`); `sig_list_` is the list of these entries in list order.  The fields
  `tracker` (always the singleton) and `it` (the position of the entry in
  `sig_list_`) are not stored: erasing by `it` is erasing the node that holds
  the entry.
* Signal memory (`amd_signal_t` objects addressed by `hsa_signal_t::handle`) is
  a map from handles to signals.
* Values obtained from the runtime (timestamps, profiling queries, statuses,
  fresh addresses and handles) are inputs of the operation that obtains them.
* `counter_t` is `uint64_t`: `counter_++` wraps modulo `2^64`.
  `hsa_signal_value_t` is `int64_t`: `load - 1` is reduced to the 64-bit range.
* Every callback and every member function is one atomic step; `trace_on_`
  is `false` in the source, so the debug trace and `outstanding_` are left out.
* The clock and the profiling queries are inputs as well; what a claim needs
  about their order (monotonic clock, hardware interval) is an explicit
  hypothesis of its theorem.
* `trace` is an observation log (handler invocations, deletions, completed
  waits) that the source does not keep; it is only appended to.
-/

namespace proxy

/-- Dispatch record (`async_record_t`), timestamps in ns. -/
structure async_record_t where
  dispatch : Nat
  begin_ : Nat
  end_ : Nat
  complete : Nat
deriving DecidableEq, Repr

/-- The fields of `amd_signal_t` that the tracker reads and writes. -/
structure amd_signal_t where
  value : Int
  start_ts : Nat
  end_ts : Nat
deriving DecidableEq, Repr

/-- Tracker entry (`Tracker::entry_t`); `handler = 0` is the null pointer and
`orig = 0` is the absent original signal (`orig.handle == 0`). -/
structure entry_t where
  ptr : Nat
  index : Nat
  valid : Bool
  agent : Nat
  orig : Nat
  signal : Nat
  record : async_record_t
  handler : Nat
  arg : Nat
  is_memcopy : Bool
deriving DecidableEq, Repr

/-- Observable events: a call of an entry's handler made by `HandleEntry`
(entry address, entry index, function called, value passed, argument passed),
a `Delete` of an entry, and a `SignalWait` that returned. -/
inductive Event where
  | call (entry : Nat) (index : Nat) (fn : Nat) (value : Int) (arg : Nat)
  | del (entry : Nat) (index : Nat)
  | wait (signal : Nat)
deriving DecidableEq, Repr

/-- Process state: the static members `instance_` (is there an instance) and
`counter_`, the instance's `sig_list_`, the signal memory and the log. -/
structure State where
  instance_ : Bool
  sig_list_ : List entry_t
  counter_ : Nat
  mem : Nat → amd_signal_t
  trace : List Event

/-- Modelled from the spec: the macros `EXC_RAISING` and `EXC_ABORT` of
`util/exception.h` and the wait loops.  A call either returns (`ok`), stays in
a wait loop (`spin`), throws (`raised`), aborts (`aborted`), or dereferences an
entry that is not live (`fault`); the state reached is recorded where there is
one. -/
inductive Outcome (α : Type) where
  | ok (a : α)
  | spin (s : State)
  | raised (s : State)
  | aborted (s : State)
  | fault

/-- Static configuration: `ordering_enabled_` (a `static const bool`, `false`
in the source) and the clock conversion `HsaRsrcFactory::SysclockToNs`. -/
structure Config where
  ordering_enabled_ : Bool
  SysclockToNs : Nat → Nat

/-- The configuration of the source: `ordering_enabled_ = false`. -/
def configured (SysclockToNs : Nat → Nat) : Config :=
  { ordering_enabled_ := false, SysclockToNs := SysclockToNs }

/-- What `Alloc` obtains from the runtime: the address given by `new entry_t`,
the value of `TimestampNs()`, the result of `hsa_signal_create` (status and
handle) and the status of `hsa_amd_signal_async_handler`. -/
structure AllocEnv where
  ptr : Nat
  now : Nat
  create_ok : Bool
  signal : Nat
  handler_ok : Bool
deriving DecidableEq, Repr

/-- Result of a profiling query (`hsa_amd_profiling_get_*_time`). -/
structure TimeQuery where
  status_ok : Bool
  start : Nat
  end_ : Nat
deriving DecidableEq, Repr

/-- What `Complete` obtains from the runtime: the two profiling queries and
the value of `TimestampNs()`. -/
structure CompleteEnv where
  async_copy_time : TimeQuery
  dispatch_time : TimeQuery
  now : Nat
deriving DecidableEq, Repr

/-- Reduction of an integer to `int64_t` (two's complement). -/
def toInt64 (x : Int) : Int := (x + 2 ^ 63) % 2 ^ 64 - 2 ^ 63

/-- Write of one signal object. -/
def store (mem : Nat → amd_signal_t) (h : Nat) (v : amd_signal_t) : Nat → amd_signal_t :=
  fun k => if k = h then v else mem k

/-- Write through the entry pointer `p`: the entry at address `p` becomes `f` of it. -/
def modify (p : Nat) (f : entry_t → entry_t) (l : List entry_t) : List entry_t :=
  l.map (fun x => if x.ptr = p then f x else x)

/-- Read through the entry pointer `p`. -/
def deref (s : State) (p : Nat) : Option entry_t :=
  s.sig_list_.find? (fun x => decide (x.ptr = p))

/-- Modelled from the spec: the static members `instance_` and `counter_` are
defined outside the header at hand.  A run starts with no instance and no
entry; `counter_` starts at `counter0` (zero for a zero-initialised static). -/
def init (counter0 : Nat) (mem : Nat → amd_signal_t) : State :=
  { instance_ := false, sig_list_ := [], counter_ := counter0, mem := mem, trace := [] }

/-- `Tracker::Create`. -/
def Create (s : State) : State :=
  if s.instance_ = false then { s with instance_ := true, sig_list_ := [] } else s

/-- `Tracker::Alloc`: returns the new state and the address of the entry. -/
def Alloc (env : AllocEnv) (agent orig : Nat) (s : State) : Outcome (State × Nat) :=
  let record : async_record_t := { dispatch := env.now, begin_ := 0, end_ := 0, complete := 0 }
  if env.create_ok = false then .raised s
  else
    let s1 : State := { s with mem := store s.mem env.signal { value := 1, start_ts := 0, end_ts := 0 } }
    if env.handler_ok = false then .raised s1
    else
      let entry : entry_t :=
        { ptr := env.ptr, index := s1.counter_, valid := false, agent := agent, orig := orig,
          signal := env.signal, record := record, handler := 0, arg := 0, is_memcopy := false }
      .ok ({ s1 with sig_list_ := s1.sig_list_ ++ [entry],
                     counter_ := (s1.counter_ + 1) % 2 ^ 64 }, env.ptr)

/-- `Tracker::Delete`: the node holding the entry is erased from `sig_list_`. -/
def Delete (entry : entry_t) (s : State) : State :=
  { s with sig_list_ := s.sig_list_.eraseP (fun x => decide (x.ptr = entry.ptr)),
           trace := s.trace ++ [Event.del entry.ptr entry.index] }

/-- `Tracker::Enable`. -/
def Enable (p : Nat) (handler arg : Nat) (s : State) : State :=
  { s with sig_list_ := modify p (fun e => { e with arg := arg, handler := handler }) s.sig_list_ }

/-- `Tracker::EnableDispatch`. -/
def EnableDispatch (p : Nat) (handler arg : Nat) (s : State) : State :=
  Enable p handler arg
    { s with sig_list_ := modify p (fun e => { e with is_memcopy := false }) s.sig_list_ }

/-- `Tracker::EnableMemcopy`. -/
def EnableMemcopy (p : Nat) (handler arg : Nat) (s : State) : State :=
  Enable p handler arg
    { s with sig_list_ := modify p (fun e => { e with is_memcopy := true }) s.sig_list_ }

/-- `Tracker::Complete`. -/
def Complete (cfg : Config) (hw : CompleteEnv) (signal_value : Int) (entry : entry_t)
    (s : State) : Outcome State :=
  let q := if entry.is_memcopy then hw.async_copy_time else hw.dispatch_time
  if q.status_ok = false then .raised s
  else
    let record : async_record_t :=
      { entry.record with begin_ := cfg.SysclockToNs q.start, end_ := cfg.SysclockToNs q.end_,
                          complete := hw.now }
    let s1 : State :=
      { s with sig_list_ := modify entry.ptr (fun e => { e with record := record, valid := true })
                 s.sig_list_ }
    if entry.orig ≠ 0 then
      let prof := s1.mem entry.signal
      let mem1 := store s1.mem entry.orig
        { s1.mem entry.orig with start_ts := prof.start_ts, end_ts := prof.end_ts }
      let new_value := toInt64 ((mem1 entry.orig).value - 1)
      if signal_value ≠ new_value then .aborted { s1 with mem := mem1 }
      else .ok { s1 with mem := store mem1 entry.orig { mem1 entry.orig with value := signal_value } }
    else .ok s1

/-- `Tracker::HandleEntry`: call the entry's handler, then delete the entry. -/
def HandleEntry (signal_value : Int) (entry : entry_t) (s : State) : State :=
  Delete entry
    { s with trace := s.trace ++
        [Event.call entry.ptr entry.index entry.handler signal_value entry.arg] }

/-- The loop of the ordered branch of `Handler`: `it` runs over the list from
`begin()` and the loop ends at the node of `back` (`end = back->it`). -/
def walk (signal_value : Int) (back : Nat) : List entry_t → State → State
  | [], s => s
  | entry :: rest, s =>
    if entry.ptr = back then s
    else if entry.valid then walk signal_value back rest (HandleEntry signal_value entry s)
    else s

/-- `Tracker::Handler`, the completion callback; `arg` is the entry pointer. -/
def Handler (cfg : Config) (hw : CompleteEnv) (signal_value : Int) (arg : Nat)
    (s : State) : Outcome (State × Bool) :=
  match deref s arg with
  | none => .fault
  | some entry =>
    if entry.handler = 0 then .spin s
    else
      match Complete cfg hw signal_value entry s with
      | .ok s1 =>
        if cfg.ordering_enabled_ = false then .ok (HandleEntry signal_value entry s1, false)
        else
          match s1.sig_list_.getLast? with
          | none => .fault
          | some back =>
            if back.handler = 0 then .spin s1
            else .ok (walk signal_value back.ptr s1.sig_list_ s1, false)
      | .spin s1 => .spin s1
      | .raised s1 => .raised s1
      | .aborted s1 => .aborted s1
      | .fault => .fault

/-- Modelled from the spec: `HsaRsrcFactory::SignalWait` (not in the sources
at hand) blocks until the proxy signal has fired, that is until its value is
below 1; the result says whether the wait returns in the given state. -/
def SignalWait (s : State) (signal : Nat) : Bool :=
  decide ((s.mem signal).value < 1)

/-- The loop of `Tracker::~Tracker`: wait on each entry's signal, then `Erase` it. -/
def drain : List entry_t → State → Outcome State
  | [], s => .ok s
  | cur :: rest, s =>
    if SignalWait s cur.signal then
      drain rest (Delete cur { s with trace := s.trace ++ [Event.wait cur.signal] })
    else .spin s

/-- `Tracker::Destroy`. -/
def Destroy (s : State) : Outcome State :=
  if s.instance_ then
    match drain s.sig_list_ s with
    | .ok s1 => .ok { s1 with instance_ := false }
    | o => o
  else .ok { s with instance_ := false }

/-- Operations of one run: the public entry points, the completion callback,
and a write of signal memory by the environment (hardware or client code). -/
inductive Op where
  | create
  | destroy
  | alloc (env : AllocEnv) (agent orig : Nat)
  | enableDispatch (p handler arg : Nat)
  | enableMemcopy (p handler arg : Nat)
  | handler (hw : CompleteEnv) (signal_value : Int) (p : Nat)
  | delete (p : Nat)
  | write (h : Nat) (v : amd_signal_t)
deriving DecidableEq

/-- One step.  `none` when the operation does not run to its end in this state:
a call on a missing instance or a dead entry, an address from `new` that is
still live, a wait that is not released, an abort.  An exception thrown by
`Alloc` leaves the caller running. -/
def step (cfg : Config) (s : State) : Op → Option State
  | .create => some (Create s)
  | .destroy =>
    match Destroy s with
    | .ok s1 => some s1
    | _ => none
  | .alloc env agent orig =>
    if s.instance_ = true ∧ env.ptr ∉ s.sig_list_.map (fun e => e.ptr) then
      match Alloc env agent orig s with
      | .ok (s1, _) => some s1
      | .raised s1 => some s1
      | _ => none
    else none
  | .enableDispatch p handler arg =>
    if s.instance_ = true ∧ (deref s p).isSome then some (EnableDispatch p handler arg s) else none
  | .enableMemcopy p handler arg =>
    if s.instance_ = true ∧ (deref s p).isSome then some (EnableMemcopy p handler arg s) else none
  | .handler hw signal_value p =>
    if s.instance_ = true then
      match Handler cfg hw signal_value p s with
      | .ok (s1, _) => some s1
      | _ => none
    else none
  | .delete p =>
    if s.instance_ = true then
      match deref s p with
      | some entry => some (Delete entry s)
      | none => none
    else none
  | .write h v => some { s with mem := store s.mem h v }

/-- A run: the operations one after the other. -/
def exec (cfg : Config) (s : State) : List Op → Option State
  | [] => some s
  | op :: ops =>
    match step cfg s op with
    | some s1 => exec cfg s1 ops
    | none => none

/-- The query that `Complete` uses for an entry. -/
def queryOf (hw : CompleteEnv) (entry : entry_t) : TimeQuery :=
  if entry.is_memcopy then hw.async_copy_time else hw.dispatch_time

/-- The entry as `Complete` leaves it: record filled in, `valid` set. -/
def stampEntry (cfg : Config) (hw : CompleteEnv) (entry : entry_t) (e : entry_t) : entry_t :=
  { e with
    record := { dispatch := entry.record.dispatch,
                begin_ := cfg.SysclockToNs (queryOf hw entry).start,
                end_ := cfg.SysclockToNs (queryOf hw entry).end_,
                complete := hw.now },
    valid := true }

/-- The state of `Complete` after `entry->valid.store(true)`. -/
def stamped (cfg : Config) (hw : CompleteEnv) (entry : entry_t) (s : State) : State :=
  { s with sig_list_ := modify entry.ptr (stampEntry cfg hw entry) s.sig_list_ }

/-- Signal memory of `Complete` after the timing fields were copied to `orig`. -/
def copied (entry : entry_t) (s : State) : Nat → amd_signal_t :=
  store s.mem entry.orig
    { value := (s.mem entry.orig).value, start_ts := (s.mem entry.signal).start_ts,
      end_ts := (s.mem entry.signal).end_ts }

/-- Signal memory of `Complete` after `hsa_signal_store_screlease`. -/
def released (v : Int) (entry : entry_t) (s : State) : Nat → amd_signal_t :=
  store (copied entry s) entry.orig
    { value := v, start_ts := (s.mem entry.signal).start_ts, end_ts := (s.mem entry.signal).end_ts }

/-- Number of `Delete` calls in a log. -/
def deletions : List Event → Nat
  | [] => 0
  | Event.del _ _ :: t => deletions t + 1
  | _ :: t => deletions t

/-- The events of tearing down one entry in the destructor. -/
def teardownEvents (e : entry_t) : List Event := [Event.wait e.signal, Event.del e.ptr e.index]

/-- The ordering `dispatch ≤ begin ≤ end ≤ complete` of a record. -/
def ordered_record (r : async_record_t) : Prop :=
  r.dispatch ≤ r.begin_ ∧ r.begin_ ≤ r.end_ ∧ r.end_ ≤ r.complete

instance (r : async_record_t) : Decidable (ordered_record r) := by
  unfold ordered_record
  infer_instance

/-- Number of admissions (`Alloc` calls) in a run. -/
def admissions : List Op → Nat
  | [] => 0
  | Op.alloc _ _ _ :: t => admissions t + 1
  | _ :: t => admissions t

/-- The sequence indices of the entries whose handlers were invoked, in the
order of invocation. -/
def handled : List Event → List Nat
  | [] => []
  | Event.call _ i _ _ _ :: t => i :: handled t
  | _ :: t => handled t

/-- The events of one `HandleEntry`. -/
def deliveryEvents (v : Int) (e : entry_t) : List Event :=
  [Event.call e.ptr e.index e.handler v e.arg, Event.del e.ptr e.index]

/-- Invariant of the list: addresses distinct, indices strictly increasing
from head to tail and below `counter_`. -/
structure InvL (l : List entry_t) (c : Nat) : Prop where
  nodup : (l.map (fun e => e.ptr)).Nodup
  sorted : (l.map (fun e => e.index)).Pairwise (fun a b => a < b)
  below : ∀ e ∈ l, e.index < c

/-- Invariant of the state. -/
structure Inv (s : State) : Prop where
  list : InvL s.sig_list_ s.counter_
  noinst : s.instance_ = false → s.sig_list_ = []

/-- Identity of an admitted entry: its address and its sequence index. -/
def key (e : entry_t) : Nat × Nat := (e.ptr, e.index)

/-- Ordered-delivery invariant of the log: the indices of the handled entries
are strictly increasing, below `counter_` and below every live index. -/
structure OrdInv (s : State) : Prop where
  sorted : (handled s.trace).Pairwise (fun a b => a < b)
  below : ∀ i ∈ handled s.trace, i < s.counter_
  before : ∀ i ∈ handled s.trace, ∀ e ∈ s.sig_list_, i < e.index

/-- Effect of one step on the list, the counter and the log: either entries
are kept or removed (`keep`), or one entry is appended at the tail (`grow`). -/
inductive Shape (cfg : Config) (op : Op) (s s1 : State) : Prop where
  | keep (l0 : List entry_t) (evs : List Event)
      (hkey : l0.map key = s.sig_list_.map key)
      (hsub : s1.sig_list_.Sublist l0)
      (hc : s1.counter_ = s.counter_)
      (ht : s1.trace = s.trace ++ evs)
      (hdel : ∀ e ∈ l0, e ∈ s1.sig_list_ ∨ Event.del e.ptr e.index ∈ evs)
      (hcalls : cfg.ordering_enabled_ = true →
        handled evs = [] ∨
          ∃ l1, l0 = l1 ++ s1.sig_list_ ∧ handled evs = l1.map (fun e => e.index)) :
      Shape cfg op s s1
  | grow (e : entry_t)
      (hop : ∃ env agent orig, op = Op.alloc env agent orig)
      (hl : s1.sig_list_ = s.sig_list_ ++ [e])
      (hidx : e.index = s.counter_)
      (hfresh : e.ptr ∉ s.sig_list_.map (fun x => x.ptr))
      (hc : s1.counter_ = (s.counter_ + 1) % 2 ^ 64)
      (ht : s1.trace = s.trace) :
      Shape cfg op s s1

/-- Effect of one operation on what is published for the entry at address `p`:
`Alloc` at `p` starts a new entry with nothing published, `Enable*` on `p`
publishes a handler and its argument. -/
def publishedBy (p : Nat) (acc : Option (Nat × Nat)) : Op → Option (Nat × Nat)
  | Op.alloc env _ _ => if env.ptr = p then none else acc
  | Op.enableDispatch q h a => if q = p then some (h, a) else acc
  | Op.enableMemcopy q h a => if q = p then some (h, a) else acc
  | _ => acc

/-- The handler and argument last published by `Enable*` for the entry that
lives at address `p` after the operations `hist`. -/
def published (hist : List Op) (p : Nat) : Option (Nat × Nat) :=
  hist.foldl (publishedBy p) none

/-- The operation does not store a null handler. -/
def publishes : Op → Prop
  | Op.enableDispatch _ h _ => h ≠ 0
  | Op.enableMemcopy _ h _ => h ≠ 0
  | _ => True

/-- Signal memory of the example runs: the original signal 10 holds 5, the
original signal 11 holds 1. -/
def wMem : Nat → amd_signal_t :=
  fun h => if h = 10 then ⟨5, 0, 0⟩ else if h = 11 then ⟨1, 0, 0⟩ else ⟨0, 0, 0⟩

/-- Runtime answers of the example callbacks: both queries succeed with
start 150 and end 160, the clock reads 200. -/
def wHw : CompleteEnv :=
  { async_copy_time := ⟨true, 150, 160⟩, dispatch_time := ⟨true, 150, 160⟩, now := 200 }

/-- Configuration with ordered delivery switched on. -/
def cfgOrdered : Config := { ordering_enabled_ := true, SysclockToNs := id }

/-- Admission and activation of one entry with original signal 10; the
hardware then completes its proxy signal 101. -/
def wOps1 : List Op :=
  [Op.create, Op.alloc ⟨1, 100, true, 101, true⟩ 7 10, Op.enableDispatch 1 77 700,
   Op.write 101 ⟨0, 150, 160⟩]

/-- The entry admitted by `wOps1`, after `EnableDispatch`. -/
def wEntry1 : entry_t :=
  { ptr := 1, index := 0, valid := false, agent := 7, orig := 10, signal := 101,
    record := ⟨100, 0, 0, 0⟩, handler := 77, arg := 700, is_memcopy := false }

/-- The state after `wOps1`. -/
def wState1 : State :=
  { instance_ := true, sig_list_ := [wEntry1], counter_ := 1,
    mem := store (store wMem 101 ⟨1, 0, 0⟩) 101 ⟨0, 150, 160⟩, trace := [] }

/-- The state after `Complete` on `wEntry1` in `wState1` with value 4. -/
def wState1c : State :=
  { stamped (configured id) wHw wEntry1 wState1 with mem := released 4 wEntry1 wState1 }

/-- Three admissions A, B, C (original signals 10, 11, none); B completes
first with value 0, then A with value 4. -/
def wOps3 : List Op :=
  [Op.create,
   Op.alloc ⟨1, 100, true, 101, true⟩ 7 10, Op.enableDispatch 1 77 700,
   Op.alloc ⟨2, 110, true, 102, true⟩ 7 11, Op.enableDispatch 2 88 800,
   Op.alloc ⟨3, 120, true, 103, true⟩ 7 0, Op.enableMemcopy 3 99 900,
   Op.handler wHw 0 2, Op.handler wHw 4 1]

/-- The state after `wOps3` under ordered delivery. -/
def wState3 : State := (exec cfgOrdered (init 0 wMem) wOps3).getD (init 0 wMem)

/-- One admission under ordered delivery, followed by its completion callback. -/
def wOpsSingle : List Op :=
  [Op.create, Op.alloc ⟨1, 100, true, 101, true⟩ 7 11, Op.enableDispatch 1 77 700,
   Op.handler wHw 0 1]

/-- A state with two live entries whose proxy signals 101 and 102 have fired. -/
def wStateLive : State :=
  { instance_ := true,
    sig_list_ :=
      [{ ptr := 1, index := 0, valid := false, agent := 7, orig := 10, signal := 101,
         record := ⟨100, 0, 0, 0⟩, handler := 77, arg := 700, is_memcopy := false },
       { ptr := 2, index := 1, valid := false, agent := 7, orig := 0, signal := 102,
         record := ⟨110, 0, 0, 0⟩, handler := 0, arg := 0, is_memcopy := false }],
    counter_ := 2,
    mem := fun _ => ⟨0, 0, 0⟩,
    trace := [] }

/-- An entry without original signal, enabled, in a state where it is live. -/
def wEntry0 : entry_t :=
  { ptr := 5, index := 3, valid := false, agent := 7, orig := 0, signal := 105,
    record := ⟨100, 0, 0, 0⟩, handler := 66, arg := 600, is_memcopy := true }

/-- The state in which `wEntry0` is the only live entry. -/
def wState0 : State :=
  { instance_ := true, sig_list_ := [wEntry0], counter_ := 4, mem := wMem, trace := [] }

/-- The operation leaves what is recorded for the address `q` alone: it is
neither an `Alloc` returning `q` nor an `Enable*` on `q`. -/
def Untouched (q : Nat) : Op → Prop
  | Op.alloc env _ _ => env.ptr ≠ q
  | Op.enableDispatch p _ _ => p ≠ q
  | Op.enableMemcopy p _ _ => p ≠ q
  | _ => True

/-- The entry that a successful `Alloc` appends. -/
def fresh (env : AllocEnv) (agent orig : Nat) (c : Nat) : entry_t :=
  { ptr := env.ptr, index := c, valid := false, agent := agent, orig := orig,
    signal := env.signal,
    record := { dispatch := env.now, begin_ := 0, end_ := 0, complete := 0 },
    handler := 0, arg := 0, is_memcopy := false }

/-- How an entry `e1` of the state after a step comes from the entry `e` of the
state `s` before it: unchanged, written by `Enable*`, or completed by the
callback (which only survives the callback under ordered delivery). -/
inductive From (cfg : Config) (op : Op) (s : State) (e e1 : entry_t) : Prop where
  | same (h : e1 = e) (hq : Untouched e.ptr op)
  | enabled (p handler arg : Nat) (b : Bool)
      (hop : (op = Op.enableDispatch p handler arg ∧ b = false) ∨
             (op = Op.enableMemcopy p handler arg ∧ b = true))
      (hp : e.ptr = p)
      (h : e1 = { e with is_memcopy := b, arg := arg, handler := handler })
  | completed (hw : CompleteEnv) (v : Int) (p : Nat) (s3 : State)
      (hop : op = Op.handler hw v p) (hd : deref s p = some e) (hpub : e.handler ≠ 0)
      (hC : Complete cfg hw v e s = .ok s3) (hord : cfg.ordering_enabled_ = true)
      (h : e1 = stampEntry cfg hw e e)

/-- Effect of one operation on the submit stamp recorded for the address `p`:
`Alloc` returning `p` reads the clock for the new entry. -/
def submittedBy (p : Nat) (acc : Option Nat) : Op → Option Nat
  | Op.alloc env _ _ => if env.ptr = p then some env.now else acc
  | _ => acc

/-- The clock value read by the `Alloc` that admitted the entry living at
address `p` after the operations `hist`. -/
def submitted (hist : List Op) (p : Nat) : Option Nat :=
  hist.foldl (submittedBy p) none

/-- Invariant of a run with history `hist`: addresses are distinct; the
handler and argument of an entry are exactly what the last `Enable*` since its
admission stored (null if there was none); a completed entry stays in the list
only under ordered delivery; `dispatch` is the submit stamp of the entry. -/
structure Base (cfg : Config) (hist : List Op) (s : State) : Prop where
  nodup : (s.sig_list_.map (fun e => e.ptr)).Nodup
  exact : ∀ e ∈ s.sig_list_, (published hist e.ptr = none ∧ e.handler = 0) ∨
    published hist e.ptr = some (e.handler, e.arg)
  val : ∀ e ∈ s.sig_list_, e.valid = true → cfg.ordering_enabled_ = true
  sub : ∀ e ∈ s.sig_list_, submitted hist e.ptr = some e.record.dispatch

/-- The own completion of the entry with address `p` and index `i` within the
history `hist`: a callback `Handler(v, p)` of the history at which this entry
was live and `Complete` returned; if the entry has an original signal, that
signal held `v` right after this `Complete`, and `v` is its value before the
completion minus one (as `int64_t`, and exactly when no overflow occurs). -/
def OwnCompletion (cfg : Config) (counter0 : Nat) (mem : Nat → amd_signal_t)
    (hist : List Op) (p i : Nat) (v : Int) : Prop :=
  ∃ own rest hw e0 sA sB, hist = own ++ Op.handler hw v p :: rest ∧
    exec cfg (init counter0 mem) own = some sA ∧ deref sA p = some e0 ∧ e0.index = i ∧
    Complete cfg hw v e0 sA = .ok sB ∧
    (e0.orig ≠ 0 →
      (sB.mem e0.orig).value = v ∧ v = toInt64 ((sA.mem e0.orig).value - 1) ∧
      (-(2 ^ 63) < (sA.mem e0.orig).value → (sA.mem e0.orig).value < 2 ^ 63 →
        v = (sA.mem e0.orig).value - 1))

/-- The values of the clock (`HsaRsrcFactory::TimestampNs`) read along a run,
in the order of the reads: one in each `Alloc`, one in each `Complete`. -/
def readings : List Op → List Nat
  | [] => []
  | Op.alloc env _ _ :: t => env.now :: readings t
  | Op.handler hw _ _ :: t => hw.now :: readings t
  | _ :: t => readings t

/-- Modelled from the spec: the profiling queries and the clock conversion of
the runtime are not in the sources at hand.  Check of one callback: the
operation started on the hardware no earlier than the submit stamp `t` of its
entry (in converted time), it ended no earlier than it started, and its
converted end is no later than the clock value read in `Complete`. -/
def hardwareInterval (cfg : Config) (hw : CompleteEnv) (e : entry_t) (t : Nat) : Bool :=
  decide (t ≤ cfg.SysclockToNs (queryOf hw e).start) &&
  decide ((queryOf hw e).start ≤ (queryOf hw e).end_) &&
  decide (cfg.SysclockToNs (queryOf hw e).end_ ≤ hw.now)

/-- The check `hardwareInterval` at every callback of the run `ops` that starts
in state `s` after the history `hist`. -/
def hardwareTimedFrom (cfg : Config) : State → List Op → List Op → Bool
  | _, _, [] => true
  | s, hist, op :: rest =>
    (match op with
      | Op.handler hw _ p =>
        (match deref s p, submitted hist p with
          | some e, some t => hardwareInterval cfg hw e t
          | _, _ => true)
      | _ => true) &&
    (match step cfg s op with
      | some s1 => hardwareTimedFrom cfg s1 (hist ++ [op]) rest
      | none => true)

/-- The timing assumption on the hardware for a run from the initial state. -/
def HardwareTimed (cfg : Config) (counter0 : Nat) (mem : Nat → amd_signal_t)
    (ops : List Op) : Prop :=
  hardwareTimedFrom cfg (init counter0 mem) [] ops = true

instance (op : Op) : Decidable (publishes op) := by
  cases op <;> unfold publishes <;> infer_instance

/-- Admission of one entry that is not yet enabled. -/
def wOpsEarly : List Op :=
  [Op.create, Op.alloc ⟨1, 100, true, 101, true⟩ 7 10]

/-- The state after `wOpsEarly`: entry 1 is live, its handler is null. -/
def wStateEarly : State :=
  (exec (configured id) (init 0 wMem) wOpsEarly).getD (init 0 wMem)

/-- One entry is admitted, enabled twice (`EnableDispatch` with handler 77, then
`EnableMemcopy` with handler 88), completed by the hardware and called back. -/
def wOpsTwice : List Op :=
  [Op.create, Op.alloc ⟨1, 100, true, 101, true⟩ 7 10, Op.enableDispatch 1 77 700,
   Op.enableMemcopy 1 88 800, Op.write 101 ⟨0, 150, 160⟩, Op.handler wHw 4 1]

/-- The state of the run `wOpsTwice` before its callback. -/
def wStateTwice5 : State :=
  (exec (configured id) (init 0 wMem) (wOpsTwice.take 5)).getD (init 0 wMem)

/-- The state after `wOpsTwice`. -/
def wStateTwice : State :=
  (exec (configured id) (init 0 wMem) wOpsTwice).getD (init 0 wMem)

/-- Signal memory in which every signal holds 1. -/
def wMemOnes : Nat → amd_signal_t := fun _ => ⟨1, 0, 0⟩

/-- Three admissions A, B, C (original signals 10, 11, none) under ordered
delivery; every proxy completes with value 0; B completes first, then A. -/
def wOps4 : List Op :=
  [Op.create,
   Op.alloc ⟨1, 100, true, 101, true⟩ 7 10, Op.enableDispatch 1 77 700,
   Op.alloc ⟨2, 110, true, 102, true⟩ 7 11, Op.enableDispatch 2 88 800,
   Op.alloc ⟨3, 120, true, 103, true⟩ 7 0, Op.enableMemcopy 3 99 900,
   Op.handler wHw 0 2, Op.handler wHw 0 1]

/-- The state of the run `wOps4` before the callback of A. -/
def wState4B : State :=
  (exec cfgOrdered (init 0 wMemOnes) (wOps4.take 8)).getD (init 0 wMemOnes)

/-- The state after `wOps4`. -/
def wState4 : State :=
  (exec cfgOrdered (init 0 wMemOnes) wOps4).getD (init 0 wMemOnes)

/-- The state after `wOpsSingle` under ordered delivery. -/
def wStateSingle : State :=
  (exec cfgOrdered (init 0 wMem) wOpsSingle).getD (init 0 wMem)

/-! ## Theorems -/

theorem toInt64_of_range (x : Int) (h1 : -(2 ^ 63) ≤ x) (h2 : x < 2 ^ 63) : toInt64 x = x := by
  unfold toInt64
  omega

theorem Complete_eq (cfg : Config) (hw : CompleteEnv) (v : Int) (entry : entry_t) (s : State) :
    Complete cfg hw v entry s =
      if (queryOf hw entry).status_ok = false then .raised s
      else if entry.orig = 0 then .ok (stamped cfg hw entry s)
      else if v = toInt64 ((s.mem entry.orig).value - 1) then
        .ok { stamped cfg hw entry s with mem := released v entry s }
      else .aborted { stamped cfg hw entry s with mem := copied entry s } := by
  unfold Complete queryOf stamped stampEntry released copied
  by_cases hm : entry.is_memcopy = true <;> by_cases ho : entry.orig = 0 <;>
    by_cases hv : v = toInt64 ((s.mem entry.orig).value - 1) <;>
    simp [hm, ho, hv, store, queryOf]

theorem deref_ptr {s : State} {p : Nat} {e : entry_t} (h : deref s p = some e) : e.ptr = p := by
  unfold deref at h
  have := List.find?_some h
  simpa using this

theorem deref_mem {s : State} {p : Nat} {e : entry_t} (h : deref s p = some e) :
    e ∈ s.sig_list_ := by
  unfold deref at h
  exact List.mem_of_find?_eq_some h

theorem complete_value (entry : entry_t) (cfg : Config) (hw : CompleteEnv) (v : Int)
    (s s1 : State) (horig : entry.orig ≠ 0)
    (hlo : -(2 ^ 63) < (s.mem entry.orig).value) (hhi : (s.mem entry.orig).value < 2 ^ 63)
    (h : Complete cfg hw v entry s = .ok s1) :
    (v = (s.mem entry.orig).value - 1 ∧ (s1.mem entry.orig).value = v) ∧
    (s1.mem entry.orig).start_ts = (s.mem entry.signal).start_ts ∧
    (s1.mem entry.orig).end_ts = (s.mem entry.signal).end_ts := by
  rw [Complete_eq] at h
  by_cases hq : (queryOf hw entry).status_ok = false
  · simp [hq] at h
  · by_cases hv : v = toInt64 ((s.mem entry.orig).value - 1)
    · rw [if_neg hq, if_neg horig, if_pos hv] at h
      simp only [Outcome.ok.injEq] at h
      subst h
      rw [toInt64_of_range _ (by omega) (by omega)] at hv
      simp [released, store, hv]
    · rw [if_neg hq, if_neg horig, if_neg hv] at h
      cases h

/-- Claim C3 (signal pass-through): for an entry with a present original signal
whose value is V (an `int64_t` other than the minimum) when `Complete` runs, if
`Complete` returns normally then the original signal holds exactly V - 1 and
its `start_ts` and `end_ts` equal those of the proxy signal. -/
theorem complete_signal_pass_through (cfg : Config) (hw : CompleteEnv) (signal_value : Int)
    (entry : entry_t) (s s1 : State) (horig : entry.orig ≠ 0)
    (hlo : -(2 ^ 63) < (s.mem entry.orig).value) (hhi : (s.mem entry.orig).value < 2 ^ 63)
    (h : Complete cfg hw signal_value entry s = .ok s1) :
    (s1.mem entry.orig).value = (s.mem entry.orig).value - 1 ∧
    (s1.mem entry.orig).start_ts = (s.mem entry.signal).start_ts ∧
    (s1.mem entry.orig).end_ts = (s.mem entry.signal).end_ts := by
  obtain ⟨⟨h1, h2⟩, h3, h4⟩ := complete_value entry cfg hw signal_value s s1 horig hlo hhi h
  exact ⟨by rw [h2, h1], h3, h4⟩

theorem Handler_live (cfg : Config) (hw : CompleteEnv) (v : Int) (p : Nat) (s : State)
    (entry : entry_t) (hl : deref s p = some entry) (hp : entry.handler ≠ 0) :
    Handler cfg hw v p s =
      match Complete cfg hw v entry s with
      | .ok s1 =>
        if cfg.ordering_enabled_ = false then .ok (HandleEntry v entry s1, false)
        else
          match s1.sig_list_.getLast? with
          | none => .fault
          | some back =>
            if back.handler = 0 then .spin s1
            else .ok (walk v back.ptr s1.sig_list_ s1, false)
      | .spin s1 => .spin s1
      | .raised s1 => .raised s1
      | .aborted s1 => .aborted s1
      | .fault => .fault := by
  unfold Handler
  simp only [hl, hp, if_false]

theorem Handler_unpublished (cfg : Config) (hw : CompleteEnv) (v : Int) (p : Nat) (s : State)
    (entry : entry_t) (hl : deref s p = some entry) (hp : entry.handler = 0) :
    Handler cfg hw v p s = .spin s := by
  unfold Handler
  simp only [hl, hp, if_true]

/-- Claim C8 (consistency check): with a successful timing query, `Complete`
aborts if and only if the original signal is present and the value passed to
the callback differs from the current value of the original signal minus one;
when it aborts the value of the original signal is unchanged, no event is
logged (no handler call) and `Handler` aborts in the same state; for an absent
original signal (handle 0) `Complete` returns and, under the configured
policy, `Handler` calls the handler of the entry with the proxy completion
value and leaves signal memory untouched. -/
theorem consistency_check (cfg : Config) (hw : CompleteEnv) (signal_value : Int) (p : Nat)
    (entry : entry_t) (s : State)
    (hlive : deref s p = some entry) (hpub : entry.handler ≠ 0)
    (hq : (queryOf hw entry).status_ok = true)
    (hrange : entry.orig ≠ 0 →
      -(2 ^ 63) < (s.mem entry.orig).value ∧ (s.mem entry.orig).value < 2 ^ 63) :
    ((∃ s1, Complete cfg hw signal_value entry s = .aborted s1) ↔
      (entry.orig ≠ 0 ∧ signal_value ≠ (s.mem entry.orig).value - 1)) ∧
    (∀ s1, Complete cfg hw signal_value entry s = .aborted s1 →
      (s1.mem entry.orig).value = (s.mem entry.orig).value ∧ s1.trace = s.trace ∧
      Handler cfg hw signal_value p s = .aborted s1) ∧
    (entry.orig = 0 → cfg.ordering_enabled_ = false →
      ∃ s1 s2, Complete cfg hw signal_value entry s = .ok s1 ∧ s1.mem = s.mem ∧
        Handler cfg hw signal_value p s = .ok (s2, false) ∧ s2.mem = s.mem ∧
        s2.trace = s.trace ++
          [Event.call p entry.index entry.handler signal_value entry.arg,
           Event.del p entry.index]) := by
  have hq2 : ¬ (queryOf hw entry).status_ok = false := by simp [hq]
  have hptr := deref_ptr hlive
  rw [Handler_live cfg hw signal_value p s entry hlive hpub, Complete_eq, if_neg hq2]
  by_cases ho : entry.orig = 0
  · simp [ho, stamped, HandleEntry, Delete, hptr]
    intro hc
    simp [hc]
  · obtain ⟨h1, h2⟩ := hrange ho
    rw [if_neg ho, toInt64_of_range _ (by omega) (by omega)]
    by_cases hv : signal_value = (s.mem entry.orig).value - 1
    · simp [ho, hv]
    · simp [ho, hv, copied, store, stamped]

theorem modify_of_not_mem (p : Nat) (f : entry_t → entry_t) (l : List entry_t)
    (h : ∀ x ∈ l, x.ptr ≠ p) : modify p f l = l := by
  unfold modify
  conv_rhs => rw [← List.map_id l]
  apply List.map_congr_left
  intro x hx
  simp [h x hx]

theorem modify_append (p : Nat) (f : entry_t → entry_t) (l1 l2 : List entry_t) :
    modify p f (l1 ++ l2) = modify p f l1 ++ modify p f l2 := by
  simp [modify]

theorem split_of_mem_nodup {e : entry_t} {l : List entry_t} (he : e ∈ l)
    (hn : (l.map (fun x => x.ptr)).Nodup) :
    ∃ l1 l2, l = l1 ++ e :: l2 ∧ (∀ x ∈ l1, x.ptr ≠ e.ptr) ∧ (∀ x ∈ l2, x.ptr ≠ e.ptr) := by
  obtain ⟨l1, l2, rfl⟩ := List.append_of_mem he
  refine ⟨l1, l2, rfl, ?_, ?_⟩
  · intro x hx hpx
    simp only [List.map_append, List.map_cons] at hn
    have := (List.nodup_append.mp hn).2.2
    exact this (List.mem_map_of_mem _ hx) (by rw [hpx]; simp)
  · intro x hx hpx
    simp only [List.map_append, List.map_cons] at hn
    have h2 := (List.nodup_append.mp hn).2.1
    have h3 := (List.nodup_cons.mp h2).1
    apply h3
    rw [← hpx]
    exact List.mem_map_of_mem _ hx

theorem modify_erase (p : Nat) (f : entry_t → entry_t) (hf : ∀ x, (f x).ptr = x.ptr)
    (e : entry_t) (hp : e.ptr = p) (l1 l2 : List entry_t)
    (h1 : ∀ x ∈ l1, x.ptr ≠ p) (h2 : ∀ x ∈ l2, x.ptr ≠ p) :
    (modify p f (l1 ++ e :: l2)).eraseP (fun x => decide (x.ptr = p)) = l1 ++ l2 := by
  have hcons : modify p f (e :: l2) = f e :: modify p f l2 := by simp [modify, hp]
  rw [modify_append, modify_of_not_mem p f l1 h1, hcons, modify_of_not_mem p f l2 h2]
  rw [List.eraseP_append_right _ (by intro b hb; simpa using h1 b hb)]
  rw [List.eraseP_cons_of_pos (by simp [hf, hp])]

/-- Claim C7 (unordered delivery): under `ordering_enabled_ = false`, the
callback of an enabled live entry whose `Complete` succeeds returns `false`,
logs exactly one handler call, the one of that entry with the value received
and the argument of the entry, followed by its deletion, and removes exactly
that entry: the other entries stay, unmodified and in the same order, whatever
their completion state. -/
theorem immediate_delivery_without_ordering (cfg : Config) (hw : CompleteEnv) (signal_value : Int) (p : Nat)
    (entry : entry_t) (s : State) (hcfg : cfg.ordering_enabled_ = false)
    (hnodup : (s.sig_list_.map (fun x => x.ptr)).Nodup)
    (hlive : deref s p = some entry) (hpub : entry.handler ≠ 0)
    (hq : (queryOf hw entry).status_ok = true)
    (hcons : entry.orig = 0 ∨ signal_value = toInt64 ((s.mem entry.orig).value - 1)) :
    ∃ s1, Handler cfg hw signal_value p s = .ok (s1, false) ∧
      s1.trace = s.trace ++
        [Event.call p entry.index entry.handler signal_value entry.arg,
         Event.del p entry.index] ∧
      ∃ l1 l2, s.sig_list_ = l1 ++ entry :: l2 ∧ s1.sig_list_ = l1 ++ l2 := by
  have hq2 : ¬ (queryOf hw entry).status_ok = false := by simp [hq]
  have hptr := deref_ptr hlive
  obtain ⟨l1, l2, hl, h1, h2⟩ := split_of_mem_nodup (deref_mem hlive) hnodup
  rw [hptr] at h1 h2
  rw [Handler_live cfg hw signal_value p s entry hlive hpub, Complete_eq, if_neg hq2]
  have key : ∀ f : entry_t → entry_t, (∀ x, (f x).ptr = x.ptr) →
      (modify p f s.sig_list_).eraseP (fun x => decide (x.ptr = p)) = l1 ++ l2 := by
    intro f hf
    rw [hl]
    exact modify_erase p f hf entry hptr l1 l2 h1 h2
  by_cases ho : entry.orig = 0
  · simp only [ho, if_true, hcfg]
    refine ⟨_, rfl, ?_, l1, l2, hl, ?_⟩
    · simp [HandleEntry, Delete, stamped, hptr]
    · simp only [HandleEntry, Delete, stamped, hptr]
      exact key _ (fun x => rfl)
  · have hv : signal_value = toInt64 ((s.mem entry.orig).value - 1) := by
      cases hcons with
      | inl h => exact absurd h ho
      | inr h => exact h
    rw [if_neg ho, if_pos hv]
    simp only [hcfg, if_true]
    refine ⟨_, rfl, ?_, l1, l2, hl, ?_⟩
    · simp [HandleEntry, Delete, stamped, hptr]
    · simp only [HandleEntry, Delete, stamped, hptr]
      exact key _ (fun x => rfl)

theorem deletions_append (t u : List Event) : deletions (t ++ u) = deletions t + deletions u := by
  induction t with
  | nil => simp [deletions]
  | cons a t ih =>
    cases a <;> simp [deletions, ih]
    omega

theorem deletions_teardown (l : List entry_t) :
    deletions (l.flatMap teardownEvents) = l.length := by
  induction l with
  | nil => simp [deletions]
  | cons a l ih =>
    simp only [List.flatMap_cons, deletions_append, ih, List.length_cons]
    simp [teardownEvents, deletions]
    omega

theorem drain_spec (l : List entry_t) : ∀ s : State, s.sig_list_ = l →
    (∀ e ∈ l, (s.mem e.signal).value < 1) →
    ∃ s1, drain l s = .ok s1 ∧ s1.sig_list_ = [] ∧
      s1.trace = s.trace ++ l.flatMap teardownEvents ∧
      s1.mem = s.mem ∧ s1.counter_ = s.counter_ ∧ s1.instance_ = s.instance_ := by
  induction l with
  | nil =>
    intro s hs _
    exact ⟨s, rfl, hs, by simp, rfl, rfl, rfl⟩
  | cons cur rest ih =>
    intro s hs hf
    have hw : SignalWait s cur.signal = true := by
      simp [SignalWait, hf cur (List.mem_cons_self _ _)]
    obtain ⟨s1, h1, h2, h3, h4, h5, h6⟩ :=
      ih (Delete cur { s with trace := s.trace ++ [Event.wait cur.signal] })
        (by simp [Delete, hs])
        (by
          intro e he
          simpa [Delete] using hf e (List.mem_cons_of_mem _ he))
    refine ⟨s1, ?_, h2, ?_, ?_, ?_, ?_⟩
    · simp only [drain, hw, if_true]
      exact h1
    · rw [h3]
      simp [Delete, teardownEvents]
    · rw [h4]; rfl
    · rw [h5]; rfl
    · rw [h6]; rfl

theorem InvL_sublist {l l1 : List entry_t} {c : Nat} (h : InvL l c) (hs : l1.Sublist l) :
    InvL l1 c :=
  ⟨h.nodup.sublist (hs.map _), h.sorted.sublist (hs.map _), fun e he => h.below e (hs.subset he)⟩

theorem modify_map_ptr (p : Nat) (f : entry_t → entry_t) (hf : ∀ x, (f x).ptr = x.ptr)
    (l : List entry_t) : (modify p f l).map (fun e => e.ptr) = l.map (fun e => e.ptr) := by
  unfold modify
  rw [List.map_map]
  apply List.map_congr_left
  intro x _
  by_cases hx : x.ptr = p <;> simp [hx, hf]

theorem mem_modify {p : Nat} {f : entry_t → entry_t} {l : List entry_t} {y : entry_t}
    (h : y ∈ modify p f l) : ∃ x ∈ l, y = if x.ptr = p then f x else x := by
  unfold modify at h
  obtain ⟨x, hx, rfl⟩ := List.mem_map.mp h
  exact ⟨x, hx, rfl⟩

theorem mem_modify_of_mem (p : Nat) (f : entry_t → entry_t) {l : List entry_t} {x : entry_t}
    (h : x ∈ l) : (if x.ptr = p then f x else x) ∈ modify p f l := by
  unfold modify
  exact List.mem_map.mpr ⟨x, h, rfl⟩

theorem InvL_append {l : List entry_t} {c : Nat} (h : InvL l c) (e : entry_t)
    (hfresh : e.ptr ∉ l.map (fun x => x.ptr)) (hidx : e.index = c) :
    InvL (l ++ [e]) (c + 1) := by
  refine ⟨?_, ?_, ?_⟩
  · rw [List.map_append, List.nodup_append]
    refine ⟨h.nodup, by simp, ?_⟩
    intro a ha hb
    simp only [List.map_cons, List.map_nil, List.mem_singleton] at hb
    subst hb
    exact hfresh ha
  · rw [List.map_append, List.pairwise_append]
    refine ⟨h.sorted, by simp, ?_⟩
    intro a ha b hb
    simp only [List.map_cons, List.map_nil, List.mem_singleton] at hb
    obtain ⟨x, hx, rfl⟩ := List.mem_map.mp ha
    rw [hb, hidx]
    exact h.below x hx
  · intro x hx
    rcases List.mem_append.mp hx with hx | hx
    · exact Nat.lt_succ_of_lt (h.below x hx)
    · simp only [List.mem_singleton] at hx
      rw [hx, hidx]
      exact Nat.lt_succ_self c

theorem Complete_ok {cfg : Config} {hw : CompleteEnv} {v : Int} {entry : entry_t} {s s1 : State}
    (h : Complete cfg hw v entry s = .ok s1) :
    ∃ m, s1 = { stamped cfg hw entry s with mem := m } := by
  rw [Complete_eq] at h
  by_cases hq : (queryOf hw entry).status_ok = false
  · simp [hq] at h
  · rw [if_neg hq] at h
    by_cases ho : entry.orig = 0
    · rw [if_pos ho] at h
      simp only [Outcome.ok.injEq] at h
      exact ⟨s.mem, h.symm⟩
    · rw [if_neg ho] at h
      by_cases hv : v = toInt64 ((s.mem entry.orig).value - 1)
      · rw [if_pos hv] at h
        simp only [Outcome.ok.injEq] at h
        exact ⟨_, h.symm⟩
      · rw [if_neg hv] at h
        cases h

theorem Handler_ok {cfg : Config} {hw : CompleteEnv} {v : Int} {p : Nat} {s s2 : State} {r : Bool}
    (h : Handler cfg hw v p s = .ok (s2, r)) :
    ∃ entry s1, deref s p = some entry ∧ entry.handler ≠ 0 ∧
      Complete cfg hw v entry s = .ok s1 ∧ r = false ∧
      ((cfg.ordering_enabled_ = false ∧ s2 = HandleEntry v entry s1) ∨
       (cfg.ordering_enabled_ = true ∧ ∃ back, s1.sig_list_.getLast? = some back ∧
          back.handler ≠ 0 ∧ s2 = walk v back.ptr s1.sig_list_ s1)) := by
  cases hd : deref s p with
  | none => simp [Handler, hd] at h
  | some entry =>
    by_cases hp : entry.handler = 0
    · rw [Handler_unpublished cfg hw v p s entry hd hp] at h
      cases h
    · rw [Handler_live cfg hw v p s entry hd hp] at h
      cases hc : Complete cfg hw v entry s with
      | ok s1 =>
        rw [hc] at h
        dsimp only at h
        refine ⟨entry, s1, rfl, hp, hc, ?_⟩
        by_cases ho : cfg.ordering_enabled_ = false
        · simp only [ho, if_true, Outcome.ok.injEq, Prod.mk.injEq] at h
          exact ⟨h.2.symm, Or.inl ⟨ho, h.1.symm⟩⟩
        · have ho2 : cfg.ordering_enabled_ = true := by simpa using ho
          rw [if_neg ho] at h
          cases hb : s1.sig_list_.getLast? with
          | none => simp [hb] at h
          | some back =>
            simp only [hb] at h
            by_cases hbh : back.handler = 0
            · simp [hbh] at h
            · rw [if_neg hbh] at h
              simp only [Outcome.ok.injEq, Prod.mk.injEq] at h
              exact ⟨h.2.symm, Or.inr ⟨ho2, back, rfl, hbh, h.1.symm⟩⟩
      | spin s1 => simp [hc] at h
      | raised s1 => simp [hc] at h
      | aborted s1 => simp [hc] at h
      | fault => simp [hc] at h

theorem walk_spec (v : Int) (b : Nat) (l : List entry_t) : ∀ s : State, s.sig_list_ = l →
    ∃ l1 l2, l = l1 ++ l2 ∧ (walk v b l s).sig_list_ = l2 ∧
      (walk v b l s).trace = s.trace ++ l1.flatMap (deliveryEvents v) ∧
      (∀ e ∈ l1, e.valid = true ∧ e.ptr ≠ b) ∧
      (∀ e, l2.head? = some e → e.ptr = b ∨ e.valid = false) ∧
      (walk v b l s).mem = s.mem ∧ (walk v b l s).counter_ = s.counter_ ∧
      (walk v b l s).instance_ = s.instance_ := by
  induction l with
  | nil =>
    intro s hs
    exact ⟨[], [], rfl, hs, by simp [walk], by simp, by simp, rfl, rfl, rfl⟩
  | cons e rest ih =>
    intro s hs
    by_cases hb : e.ptr = b
    · refine ⟨[], e :: rest, rfl, ?_, ?_, by simp, ?_, ?_, ?_, ?_⟩ <;> simp [walk, hb, hs]
    · by_cases hv : e.valid = true
      · obtain ⟨l1, l2, h1, h2, h3, h4, h5, h6, h7, h8⟩ :=
          ih (HandleEntry v e s) (by simp [HandleEntry, Delete, hs])
        refine ⟨e :: l1, l2, by rw [h1]; rfl, ?_, ?_, ?_, h5, ?_, ?_, ?_⟩
        · simp only [walk, hb, if_false, hv, if_true]; exact h2
        · simp only [walk, hb, if_false, hv, if_true]
          rw [h3]
          simp [HandleEntry, Delete, deliveryEvents]
        · intro x hx
          rcases List.mem_cons.mp hx with hx | hx
          · rw [hx]; exact ⟨hv, hb⟩
          · exact h4 x hx
        · simp only [walk, hb, if_false, hv, if_true]; rw [h6]; rfl
        · simp only [walk, hb, if_false, hv, if_true]; rw [h7]; rfl
        · simp only [walk, hb, if_false, hv, if_true]; rw [h8]; rfl
      · refine ⟨[], e :: rest, rfl, ?_, ?_, by simp, ?_, ?_, ?_, ?_⟩ <;> simp [walk, hb, hv, hs]

theorem map_ptr_of_key {l0 l : List entry_t} (h : l0.map key = l.map key) :
    l0.map (fun e => e.ptr) = l.map (fun e => e.ptr) := by
  have := congrArg (List.map Prod.fst) h
  simpa [List.map_map, Function.comp_def, key] using this

theorem map_index_of_key {l0 l : List entry_t} (h : l0.map key = l.map key) :
    l0.map (fun e => e.index) = l.map (fun e => e.index) := by
  have := congrArg (List.map Prod.snd) h
  simpa [List.map_map, Function.comp_def, key] using this

theorem InvL_congr {l0 l : List entry_t} {c : Nat} (h : InvL l c) (hk : l0.map key = l.map key) :
    InvL l0 c := by
  refine ⟨?_, ?_, ?_⟩
  · rw [map_ptr_of_key hk]; exact h.nodup
  · rw [map_index_of_key hk]; exact h.sorted
  · intro e he
    have : e.index ∈ l0.map (fun e => e.index) := List.mem_map_of_mem _ he
    rw [map_index_of_key hk] at this
    obtain ⟨x, hx, hxe⟩ := List.mem_map.mp this
    rw [← hxe]
    exact h.below x hx

theorem modify_map_key (p : Nat) (f : entry_t → entry_t) (hf : ∀ x, key (f x) = key x)
    (l : List entry_t) : (modify p f l).map key = l.map key := by
  unfold modify
  rw [List.map_map]
  apply List.map_congr_left
  intro x _
  by_cases hx : x.ptr = p <;> simp [hx, hf]

theorem eq_of_ptr_eq {l : List entry_t} (hn : (l.map (fun e => e.ptr)).Nodup) {a b : entry_t}
    (ha : a ∈ l) (hb : b ∈ l) (h : a.ptr = b.ptr) : a = b :=
  List.inj_on_of_nodup_map hn ha hb h

theorem handled_append (t u : List Event) : handled (t ++ u) = handled t ++ handled u := by
  induction t with
  | nil => simp [handled]
  | cons a t ih => cases a <;> simp [handled, ih]

theorem handled_teardown (l : List entry_t) : handled (l.flatMap teardownEvents) = [] := by
  induction l with
  | nil => simp [handled]
  | cons a l ih =>
    rw [List.flatMap_cons, handled_append, ih]
    simp [teardownEvents, handled]

theorem handled_delivery (v : Int) (l : List entry_t) :
    handled (l.flatMap (deliveryEvents v)) = l.map (fun e => e.index) := by
  induction l with
  | nil => simp [handled]
  | cons a l ih =>
    rw [List.flatMap_cons, handled_append, ih]
    simp [deliveryEvents, handled]

theorem drain_ok (l : List entry_t) : ∀ s s1 : State, s.sig_list_ = l → drain l s = .ok s1 →
    s1.sig_list_ = [] ∧ s1.trace = s.trace ++ l.flatMap teardownEvents ∧
      s1.mem = s.mem ∧ s1.counter_ = s.counter_ ∧ s1.instance_ = s.instance_ := by
  induction l with
  | nil =>
    intro s s1 hs h
    simp only [drain, Outcome.ok.injEq] at h
    subst h
    exact ⟨hs, by simp, rfl, rfl, rfl⟩
  | cons cur rest ih =>
    intro s s1 hs h
    by_cases hw : SignalWait s cur.signal = true
    · simp only [drain, hw, if_true] at h
      obtain ⟨h2, h3, h4, h5, h6⟩ := ih _ s1 (by simp [Delete, hs]) h
      refine ⟨h2, ?_, ?_, ?_, ?_⟩
      · rw [h3]; simp [Delete, teardownEvents]
      · rw [h4]; rfl
      · rw [h5]; rfl
      · rw [h6]; rfl
    · simp [drain, hw] at h

theorem Destroy_ok {s s1 : State} (h : Destroy s = .ok s1) :
    s1.instance_ = false ∧ s1.counter_ = s.counter_ ∧ s1.mem = s.mem ∧
    ((s.instance_ = true ∧ s1.sig_list_ = [] ∧
        s1.trace = s.trace ++ s.sig_list_.flatMap teardownEvents) ∨
     (s.instance_ = false ∧ s1.sig_list_ = s.sig_list_ ∧ s1.trace = s.trace)) := by
  unfold Destroy at h
  by_cases hi : s.instance_ = true
  · simp only [hi, if_true] at h
    cases hd : drain s.sig_list_ s with
    | ok s2 =>
      rw [hd] at h
      simp only [Outcome.ok.injEq] at h
      subst h
      obtain ⟨h2, h3, h4, h5, _⟩ := drain_ok _ s s2 rfl hd
      exact ⟨rfl, h5, h4, Or.inl ⟨hi, h2, h3⟩⟩
    | spin s2 => simp [hd] at h
    | raised s2 => simp [hd] at h
    | aborted s2 => simp [hd] at h
    | fault => simp [hd] at h
  · simp only [hi] at h
    simp only [Bool.false_eq_true, if_false, Outcome.ok.injEq] at h
    subst h
    exact ⟨rfl, rfl, rfl, Or.inr ⟨by simpa using hi, rfl, rfl⟩⟩

theorem mem_delivery {v : Int} {l : List entry_t} {e : entry_t} (he : e ∈ l) :
    Event.del e.ptr e.index ∈ l.flatMap (deliveryEvents v) := by
  rw [List.mem_flatMap]
  exact ⟨e, he, by simp [deliveryEvents]⟩

theorem mem_teardown {l : List entry_t} {e : entry_t} (he : e ∈ l) :
    Event.del e.ptr e.index ∈ l.flatMap teardownEvents := by
  rw [List.mem_flatMap]
  exact ⟨e, he, by simp [teardownEvents]⟩

theorem erase_keep {l : List entry_t} (hn : (l.map (fun e => e.ptr)).Nodup) {x : entry_t}
    (hx : x ∈ l) (k : Nat × Nat) (hk : key x = k) :
    ∀ e ∈ l, e ∈ l.eraseP (fun y => decide (y.ptr = k.1)) ∨ Event.del e.ptr e.index =
      Event.del k.1 k.2 := by
  intro e he
  by_cases hp : e.ptr = k.1
  · right
    have hxe : e = x := eq_of_ptr_eq hn he hx (by rw [hp, ← hk]; rfl)
    rw [hxe, ← hk]
    rfl
  · left
    exact (List.mem_eraseP_of_neg (by simpa using hp)).mpr he

theorem shape_same (cfg : Config) (op : Op) (s s1 : State) (l0 : List entry_t)
    (hkey : l0.map key = s.sig_list_.map key) (hl : s1.sig_list_ = l0)
    (hc : s1.counter_ = s.counter_) (ht : s1.trace = s.trace) : Shape cfg op s s1 := by
  refine Shape.keep l0 [] hkey (by rw [hl]) hc (by simp [ht]) ?_ ?_
  · intro e he
    left
    rw [hl]
    exact he
  · intro _
    left
    rfl

theorem shape_erase (cfg : Config) (op : Op) (s s1 : State) (l0 : List entry_t) (x : entry_t)
    (evs : List Event) (hinv : Inv s)
    (hkey : l0.map key = s.sig_list_.map key) (hx : x ∈ l0)
    (hl : s1.sig_list_ = l0.eraseP (fun y => decide (y.ptr = x.ptr)))
    (hc : s1.counter_ = s.counter_) (ht : s1.trace = s.trace ++ evs)
    (hev : Event.del x.ptr x.index ∈ evs)
    (hcalls : cfg.ordering_enabled_ = true → handled evs = []) : Shape cfg op s s1 := by
  have hn : (l0.map (fun e => e.ptr)).Nodup := (InvL_congr hinv.list hkey).nodup
  refine Shape.keep l0 evs hkey (by rw [hl]; exact List.eraseP_sublist _) hc ht ?_ ?_
  · intro e he
    rcases erase_keep hn hx (key x) rfl e he with h | h
    · left
      rw [hl]
      exact h
    · right
      rw [h]
      exact hev
  · intro ho
    exact Or.inl (hcalls ho)

theorem step_shape (cfg : Config) (s s1 : State) (op : Op) (hinv : Inv s)
    (h : step cfg s op = some s1) :
    Shape cfg op s s1 ∧ (s1.instance_ = false → s1.sig_list_ = []) := by
  cases op with
  | create =>
    simp only [step, Option.some.injEq] at h
    subst h
    by_cases hi : s.instance_ = false
    · have hnil := hinv.noinst hi
      refine ⟨shape_same cfg _ s _ [] (by simp [hnil]) (by simp [Create, hi]) ?_ ?_, ?_⟩
      · simp [Create, hi]
      · simp [Create, hi]
      · simp [Create, hi]
    · refine ⟨shape_same cfg _ s _ s.sig_list_ rfl (by simp [Create, hi]) ?_ ?_, ?_⟩
      · simp [Create, hi]
      · simp [Create, hi]
      · simp [Create, hi]
  | destroy =>
    simp only [step] at h
    cases hd : Destroy s with
    | ok s2 =>
      rw [hd] at h
      simp only [Option.some.injEq] at h
      subst h
      obtain ⟨h1, h2, _, h4⟩ := Destroy_ok hd
      rcases h4 with ⟨_, hl, ht⟩ | ⟨hi, hl, ht⟩
      · refine ⟨Shape.keep s.sig_list_ _ rfl (by rw [hl]; exact List.nil_sublist _) h2 ht ?_ ?_,
          fun _ => hl⟩
        · intro e he
          exact Or.inr (mem_teardown he)
        · intro _
          exact Or.inl (handled_teardown _)
      · refine ⟨shape_same cfg _ s _ s.sig_list_ rfl hl h2 ht, fun _ => ?_⟩
        rw [hl]
        exact hinv.noinst hi
    | spin s2 => simp [hd] at h
    | raised s2 => simp [hd] at h
    | aborted s2 => simp [hd] at h
    | fault => simp [hd] at h
  | alloc env agent orig =>
    simp only [step] at h
    split at h
    · rename_i hg
      obtain ⟨hi, hfresh⟩ := hg
      cases hco : env.create_ok <;> cases hho : env.handler_ok <;>
        simp only [Alloc, hco, hho, if_true, if_false, Bool.true_eq_false, Bool.false_eq_true,
          Option.some.injEq] at h <;> subst h
      · exact ⟨shape_same cfg _ s _ s.sig_list_ rfl rfl rfl rfl, fun hf => by simp [hi] at hf⟩
      · exact ⟨shape_same cfg _ s _ s.sig_list_ rfl rfl rfl rfl, fun hf => by simp [hi] at hf⟩
      · exact ⟨shape_same cfg _ s _ s.sig_list_ rfl rfl rfl rfl, fun hf => by simp [hi] at hf⟩
      · exact ⟨Shape.grow _ ⟨env, agent, orig, rfl⟩ rfl rfl hfresh rfl rfl, fun hf => by simp [hi] at hf⟩
    · cases h
  | enableDispatch p handler arg =>
    simp only [step] at h
    split at h
    · rename_i hg
      simp only [Option.some.injEq] at h
      subst h
      refine ⟨shape_same cfg _ s _ _ ?_ rfl rfl rfl, fun hf => ?_⟩
      · simp only [EnableDispatch, Enable]
        rw [modify_map_key _ _ (by intro x; rfl), modify_map_key _ _ (by intro x; rfl)]
      · simp [EnableDispatch, Enable, hg.1] at hf
    · cases h
  | enableMemcopy p handler arg =>
    simp only [step] at h
    split at h
    · rename_i hg
      simp only [Option.some.injEq] at h
      subst h
      refine ⟨shape_same cfg _ s _ _ ?_ rfl rfl rfl, fun hf => ?_⟩
      · simp only [EnableMemcopy, Enable]
        rw [modify_map_key _ _ (by intro x; rfl), modify_map_key _ _ (by intro x; rfl)]
      · simp [EnableMemcopy, Enable, hg.1] at hf
    · cases h
  | handler hw v p =>
    simp only [step] at h
    split at h
    · rename_i hi
      cases hH : Handler cfg hw v p s with
      | ok r =>
        obtain ⟨s2, b⟩ := r
        rw [hH] at h
        simp only [Option.some.injEq] at h
        subst h
        obtain ⟨entry, s3, hd, _, hC, _, hcase⟩ := Handler_ok hH
        obtain ⟨m, hs3⟩ := Complete_ok hC
        have hkey : (s3.sig_list_).map key = s.sig_list_.map key := by
          rw [hs3]
          simp only [stamped]
          exact modify_map_key _ _ (by intro x; rfl) _
        rcases hcase with ⟨ho, hs2⟩ | ⟨ho, back, _, _, hs2⟩
        · have hx0 := mem_modify_of_mem entry.ptr (stampEntry cfg hw entry) (deref_mem hd)
          rw [if_pos rfl] at hx0
          have hx : stampEntry cfg hw entry entry ∈ s3.sig_list_ := by
            rw [hs3]
            exact hx0
          refine ⟨shape_erase cfg _ s _ s3.sig_list_ _ (deliveryEvents v entry) hinv hkey hx ?_ ?_ ?_
            ?_ ?_, fun hf => ?_⟩
          · rw [hs2]; rfl
          · rw [hs2, hs3]; rfl
          · rw [hs2, hs3]; simp [HandleEntry, Delete, stamped, deliveryEvents]
          · simp [deliveryEvents, stampEntry]
          · intro ho2
            rw [ho] at ho2
            cases ho2
          · rw [hs2, hs3] at hf
            simp [HandleEntry, Delete, stamped, hi] at hf
        · obtain ⟨l1, l2, h1, h2, h3, _, _, _, h7, h8⟩ := walk_spec v back.ptr s3.sig_list_ s3 rfl
          rw [← hs2] at h2 h3 h7 h8
          refine ⟨Shape.keep s3.sig_list_ (l1.flatMap (deliveryEvents v)) hkey ?_ ?_ ?_ ?_ ?_,
            fun hf => ?_⟩
          · rw [h2, h1]; exact List.sublist_append_right _ _
          · rw [h7, hs3]; rfl
          · rw [h3, hs3]; rfl
          · intro e he
            rw [h1] at he
            rcases List.mem_append.mp he with he | he
            · exact Or.inr (mem_delivery he)
            · left; rw [h2]; exact he
          · intro _
            right
            exact ⟨l1, by rw [h2]; exact h1, handled_delivery v l1⟩
          · rw [h8, hs3] at hf
            simp [stamped, hi] at hf
      | spin s2 => simp [hH] at h
      | raised s2 => simp [hH] at h
      | aborted s2 => simp [hH] at h
      | fault => simp [hH] at h
    · cases h
  | delete p =>
    simp only [step] at h
    split at h
    · rename_i hi
      cases hd : deref s p with
      | none => simp [hd] at h
      | some entry =>
        rw [hd] at h
        simp only [Option.some.injEq] at h
        subst h
        refine ⟨shape_erase cfg _ s _ s.sig_list_ entry [Event.del entry.ptr entry.index] hinv rfl
          (deref_mem hd) rfl rfl rfl (by simp) (fun _ => by simp [handled]), fun hf => ?_⟩
        simp [Delete, hi] at hf
    · cases h
  | write hd v =>
    simp only [step, Option.some.injEq] at h
    subst h
    exact ⟨shape_same cfg _ s _ s.sig_list_ rfl rfl rfl rfl, hinv.noinst⟩

theorem mem_of_key_eq {l0 l : List entry_t} (hk : l0.map key = l.map key) {e : entry_t}
    (he : e ∈ l0) : ∃ x ∈ l, key x = key e := by
  have : key e ∈ l0.map key := List.mem_map_of_mem _ he
  rw [hk] at this
  obtain ⟨x, hx, hxe⟩ := List.mem_map.mp this
  exact ⟨x, hx, hxe⟩

theorem shape_inv {cfg : Config} {op : Op} {s s1 : State} (hs : Shape cfg op s s1)
    (hinv : Inv s) (hni : s1.instance_ = false → s1.sig_list_ = [])
    (hw : s.counter_ + admissions [op] < 2 ^ 64) :
    Inv s1 ∧ s.counter_ ≤ s1.counter_ ∧ s1.counter_ ≤ s.counter_ + admissions [op] := by
  cases hs with
  | keep l0 evs hkey hsub hc ht hdel hcalls =>
    refine ⟨⟨?_, hni⟩, by omega, by omega⟩
    rw [hc]
    exact InvL_sublist (InvL_congr hinv.list hkey) hsub
  | grow e hop hl hidx hfresh hc ht =>
    obtain ⟨env, agent, orig, rfl⟩ := hop
    simp only [admissions] at hw ⊢
    have hc1 : s1.counter_ = s.counter_ + 1 := by
      rw [hc]
      exact Nat.mod_eq_of_lt (by omega)
    refine ⟨⟨?_, hni⟩, by omega, by omega⟩
    rw [hc1, hl]
    exact InvL_append hinv.list e hfresh hidx

theorem shape_member {cfg : Config} {op : Op} {s s1 : State} (hs : Shape cfg op s s1) :
    ∃ evs, s1.trace = s.trace ++ evs ∧
      ∀ e ∈ s.sig_list_, (∃ e1 ∈ s1.sig_list_, key e1 = key e) ∨
        Event.del e.ptr e.index ∈ evs := by
  cases hs with
  | keep l0 evs hkey hsub hc ht hdel hcalls =>
    refine ⟨evs, ht, ?_⟩
    intro e he
    obtain ⟨x, hx, hxe⟩ := mem_of_key_eq hkey.symm he
    rcases hdel x hx with h | h
    · exact Or.inl ⟨x, h, hxe⟩
    · right
      have h1 : x.ptr = e.ptr := congrArg Prod.fst hxe
      have h2 : x.index = e.index := congrArg Prod.snd hxe
      rw [← h1, ← h2]
      exact h
  | grow e hop hl hidx hfresh hc ht =>
    refine ⟨[], by simp [ht], ?_⟩
    intro x hx
    left
    exact ⟨x, by rw [hl]; exact List.mem_append_left _ hx, rfl⟩

theorem shape_origin {cfg : Config} {op : Op} {s s1 : State} (hs : Shape cfg op s s1) :
    ∀ e1 ∈ s1.sig_list_, (∃ e ∈ s.sig_list_, key e = key e1) ∨ e1.index = s.counter_ := by
  cases hs with
  | keep l0 evs hkey hsub hc ht hdel hcalls =>
    intro e1 he1
    exact Or.inl (mem_of_key_eq hkey (hsub.subset he1))
  | grow e hop hl hidx hfresh hc ht =>
    intro e1 he1
    rw [hl] at he1
    rcases List.mem_append.mp he1 with h | h
    · exact Or.inl ⟨e1, h, rfl⟩
    · simp only [List.mem_singleton] at h
      right
      rw [h]
      exact hidx

theorem shape_ord {cfg : Config} {op : Op} {s s1 : State} (hs : Shape cfg op s s1)
    (hinv : Inv s) (hord : OrdInv s) (ho : cfg.ordering_enabled_ = true)
    (hw : s.counter_ + admissions [op] < 2 ^ 64) : OrdInv s1 := by
  cases hs with
  | keep l0 evs hkey hsub hc ht hdel hcalls =>
    have hl0 : InvL l0 s.counter_ := InvL_congr hinv.list hkey
    have hbefore0 : ∀ i ∈ handled s.trace, ∀ e ∈ l0, i < e.index := by
      intro i hi e he
      obtain ⟨x, hx, hxe⟩ := mem_of_key_eq hkey he
      have h2 : x.index = e.index := congrArg Prod.snd hxe
      rw [← h2]
      exact hord.before i hi x hx
    rcases hcalls ho with hnil | ⟨l1, hl1, hh⟩
    · have htr : handled s1.trace = handled s.trace := by
        rw [ht, handled_append, hnil, List.append_nil]
      refine ⟨by rw [htr]; exact hord.sorted, ?_, ?_⟩
      · intro i hi
        rw [htr] at hi
        rw [hc]
        exact hord.below i hi
      · intro i hi e he
        rw [htr] at hi
        exact hbefore0 i hi e (hsub.subset he)
    · have htr : handled s1.trace = handled s.trace ++ l1.map (fun e => e.index) := by
        rw [ht, handled_append, hh]
      have hsorted0 := hl0.sorted
      rw [hl1, List.map_append, List.pairwise_append] at hsorted0
      refine ⟨?_, ?_, ?_⟩
      · rw [htr, List.pairwise_append]
        refine ⟨hord.sorted, hsorted0.1, ?_⟩
        intro a ha b hb
        obtain ⟨x, hx, rfl⟩ := List.mem_map.mp hb
        exact hbefore0 a ha x (by rw [hl1]; exact List.mem_append_left _ hx)
      · intro i hi
        rw [htr] at hi
        rw [hc]
        rcases List.mem_append.mp hi with h | h
        · exact hord.below i h
        · obtain ⟨x, hx, rfl⟩ := List.mem_map.mp h
          exact hl0.below x (by rw [hl1]; exact List.mem_append_left _ hx)
      · intro i hi e he
        rw [htr] at hi
        rcases List.mem_append.mp hi with h | h
        · exact hbefore0 i h e (hsub.subset he)
        · exact hsorted0.2.2 i h e.index (List.mem_map_of_mem _ he)
  | grow e hop hl hidx hfresh hc ht =>
    obtain ⟨env, agent, orig, rfl⟩ := hop
    simp only [admissions] at hw
    have hc1 : s1.counter_ = s.counter_ + 1 := by
      rw [hc]
      exact Nat.mod_eq_of_lt (by omega)
    refine ⟨by rw [ht]; exact hord.sorted, ?_, ?_⟩
    · intro i hi
      rw [ht] at hi
      have := hord.below i hi
      omega
    · intro i hi x hx
      rw [ht] at hi
      rw [hl] at hx
      rcases List.mem_append.mp hx with h | h
      · exact hord.before i hi x h
      · simp only [List.mem_singleton] at h
        rw [h, hidx]
        exact hord.below i hi

theorem admissions_cons (op : Op) (ops : List Op) :
    admissions (op :: ops) = admissions [op] + admissions ops := by
  cases op <;> simp [admissions]
  omega

/-- Everything that a run preserves or guarantees, from a state that
satisfies the invariant and without wrap-around of `counter_`. -/
theorem exec_facts (cfg : Config) (ops : List Op) : ∀ s s1 : State, Inv s →
    s.counter_ + admissions ops < 2 ^ 64 → exec cfg s ops = some s1 →
    Inv s1 ∧ s.counter_ ≤ s1.counter_ ∧ s1.counter_ ≤ s.counter_ + admissions ops ∧
    (∃ evs, s1.trace = s.trace ++ evs ∧
      ∀ e ∈ s.sig_list_, (∃ e1 ∈ s1.sig_list_, key e1 = key e) ∨
        Event.del e.ptr e.index ∈ evs) ∧
    (∀ e1 ∈ s1.sig_list_, (∃ e ∈ s.sig_list_, key e = key e1) ∨ s.counter_ ≤ e1.index) ∧
    (cfg.ordering_enabled_ = true → OrdInv s → OrdInv s1) := by
  induction ops with
  | nil =>
    intro s s1 hinv _ h
    simp only [exec, Option.some.injEq] at h
    subst h
    exact ⟨hinv, le_refl _, by simp [admissions], ⟨[], by simp, fun e he => Or.inl ⟨e, he, rfl⟩⟩,
      fun e he => Or.inl ⟨e, he, rfl⟩, fun _ h => h⟩
  | cons op ops ih =>
    intro s s1 hinv hw h
    rw [admissions_cons] at hw ⊢
    simp only [exec] at h
    cases hst : step cfg s op with
    | none => simp [hst] at h
    | some s2 =>
      rw [hst] at h
      dsimp only at h
      obtain ⟨hshape, hni⟩ := step_shape cfg s s2 op hinv hst
      obtain ⟨hinv2, hc1, hc2⟩ := shape_inv hshape hinv hni (by omega)
      obtain ⟨hinv1, hc3, hc4, ⟨evs2, ht2, hm2⟩, ho2, hord2⟩ := ih s2 s1 hinv2 (by omega) h
      obtain ⟨evs1, ht1, hm1⟩ := shape_member hshape
      refine ⟨hinv1, by omega, by omega, ⟨evs1 ++ evs2, by rw [ht2, ht1, List.append_assoc], ?_⟩,
        ?_, ?_⟩
      · intro e he
        rcases hm1 e he with ⟨e2, he2, hk⟩ | hdel
        · rcases hm2 e2 he2 with ⟨e3, he3, hk3⟩ | hdel
          · exact Or.inl ⟨e3, he3, hk3.trans hk⟩
          · right
            have h1 : e2.ptr = e.ptr := congrArg Prod.fst hk
            have h2 : e2.index = e.index := congrArg Prod.snd hk
            rw [← h1, ← h2]
            exact List.mem_append_right _ hdel
        · exact Or.inr (List.mem_append_left _ hdel)
      · intro e1 he1
        rcases ho2 e1 he1 with ⟨e2, he2, hk⟩ | hge
        · rcases shape_origin hshape e2 he2 with ⟨e, he, hk0⟩ | heq
          · exact Or.inl ⟨e, he, hk0.trans hk⟩
          · right
            have h2 : e2.index = e1.index := congrArg Prod.snd hk
            omega
        · right
          omega
      · intro ho hord
        exact hord2 ho (shape_ord hshape hinv hord ho (by omega))

theorem published_snoc (hist : List Op) (op : Op) (p : Nat) :
    published (hist ++ [op]) p = publishedBy p (published hist p) op := by
  simp [published, List.foldl_append]

theorem erase_ptr_ne {l : List entry_t} (hn : (l.map (fun e => e.ptr)).Nodup) {x : entry_t}
    (hx : x ∈ l) : ∀ e ∈ l.eraseP (fun y => decide (y.ptr = x.ptr)), e.ptr ≠ x.ptr := by
  obtain ⟨l1, l2, hl, h1, h2⟩ := split_of_mem_nodup hx hn
  have : l.eraseP (fun y => decide (y.ptr = x.ptr)) = l1 ++ l2 := by
    rw [hl, List.eraseP_append_right _ (by intro b hb; simpa using h1 b hb)]
    rw [List.eraseP_cons_of_pos (by simp)]
  rw [this]
  intro e he
  rcases List.mem_append.mp he with h | h
  · exact h1 e h
  · exact h2 e h

theorem modify_modify (p : Nat) (f g : entry_t → entry_t) (hf : ∀ x, (f x).ptr = x.ptr)
    (l : List entry_t) : modify p g (modify p f l) = modify p (fun x => g (f x)) l := by
  unfold modify
  rw [List.map_map]
  apply List.map_congr_left
  intro x _
  by_cases hx : x.ptr = p <;> simp [hx, hf]

theorem exec_append (cfg : Config) (a b : List Op) : ∀ s s1 : State,
    exec cfg s (a ++ b) = some s1 ↔ ∃ s0, exec cfg s a = some s0 ∧ exec cfg s0 b = some s1 := by
  induction a with
  | nil =>
    intro s s1
    simp [exec]
  | cons op a ih =>
    intro s s1
    simp only [List.cons_append, exec]
    cases hst : step cfg s op with
    | none => simp
    | some s2 => exact ih s2 s1

theorem Alloc_ok {env : AllocEnv} {agent orig : Nat} {s s1 : State} {p : Nat}
    (h : Alloc env agent orig s = .ok (s1, p)) :
    env.create_ok = true ∧ env.handler_ok = true ∧
    s1 = { s with
      mem := store s.mem env.signal { value := 1, start_ts := 0, end_ts := 0 },
      sig_list_ := s.sig_list_ ++
        [{ ptr := env.ptr, index := s.counter_, valid := false, agent := agent, orig := orig,
           signal := env.signal,
           record := { dispatch := env.now, begin_ := 0, end_ := 0, complete := 0 },
           handler := 0, arg := 0, is_memcopy := false }],
      counter_ := (s.counter_ + 1) % 2 ^ 64 } ∧
    p = env.ptr := by
  cases hco : env.create_ok <;> cases hho : env.handler_ok <;> simp [Alloc, hco, hho] at h
  exact ⟨rfl, rfl, h.1.symm, h.2.symm⟩

theorem admissions_append (a b : List Op) :
    admissions (a ++ b) = admissions a + admissions b := by
  induction a with
  | nil => simp [admissions]
  | cons op a ih => rw [List.cons_append, admissions_cons, admissions_cons op a, ih]; omega

theorem step_alloc_counter {cfg : Config} {env : AllocEnv} {agent orig : Nat} {s s1 : State}
    (h : step cfg s (Op.alloc env agent orig) = some s1) (hco : env.create_ok = true)
    (hho : env.handler_ok = true) : s1.counter_ = (s.counter_ + 1) % 2 ^ 64 := by
  simp only [step] at h
  split at h
  · simp [Alloc, hco, hho] at h
    rw [← h]
    norm_num
  · cases h

theorem exec_single (cfg : Config) (s : State) (op : Op) : exec cfg s [op] = step cfg s op := by
  simp only [exec]
  cases step cfg s op <;> rfl

theorem Inv_init (counter0 : Nat) (mem : Nat → amd_signal_t) : Inv (init counter0 mem) :=
  ⟨⟨by simp [init], by simp [init], by simp [init]⟩, fun _ => rfl⟩

theorem OrdInv_init (counter0 : Nat) (mem : Nat → amd_signal_t) : OrdInv (init counter0 mem) :=
  ⟨by simp [init, handled], by simp [init, handled], by simp [init, handled]⟩

theorem deref_of_mem {s : State} (hn : (s.sig_list_.map (fun e => e.ptr)).Nodup) {e : entry_t}
    (he : e ∈ s.sig_list_) : deref s e.ptr = some e := by
  cases hd : deref s e.ptr with
  | none =>
    unfold deref at hd
    have := List.find?_eq_none.mp hd e he
    simp at this
  | some x =>
    have hx := deref_mem hd
    have hp := deref_ptr hd
    rw [eq_of_ptr_eq hn hx he hp]

/-- Claim C10 (live-list invariant): in every state reached from the initial
state by a run with fewer than `2^64` admissions, the live entries have pairwise
distinct addresses and strictly increasing indices from head to tail, all below
`counter_`; a successful `Alloc` appends its entry at the tail with index
`counter_`, above every live index and above the index given by every earlier
successful `Alloc` of the run (also across `Destroy` and `Create`); `Delete`
leaves no entry with the address or index of the deleted one; and along any
continuation a live entry stays live with the same address and index unless a
`Delete` of it is logged, while an index already assigned and no longer live
never becomes live again. -/
theorem live_list_invariant (cfg : Config) (counter0 : Nat) (mem : Nat → amd_signal_t) (ops : List Op)
    (s : State) (hex : exec cfg (init counter0 mem) ops = some s) (hwrap : counter0 + admissions ops < 2 ^ 64) :
    (s.sig_list_.map (fun e => e.ptr)).Nodup ∧
    (s.sig_list_.map (fun e => e.index)).Pairwise (fun a b => a < b) ∧
    (∀ e ∈ s.sig_list_, e.index < s.counter_) ∧
    (∀ env agent orig s1 p, Alloc env agent orig s = .ok (s1, p) →
      ∃ e, s1.sig_list_ = s.sig_list_ ++ [e] ∧ e.ptr = env.ptr ∧ p = env.ptr ∧
        e.index = s.counter_ ∧ ∀ x ∈ s.sig_list_, x.index < e.index) ∧
    (∀ pre post env0 agent0 orig0 s0, ops = pre ++ Op.alloc env0 agent0 orig0 :: post →
      exec cfg (init counter0 mem) pre = some s0 → env0.create_ok = true → env0.handler_ok = true →
      s0.counter_ < s.counter_) ∧
    (∀ e ∈ s.sig_list_, ∀ x ∈ (Delete e s).sig_list_, x.ptr ≠ e.ptr ∧ x.index ≠ e.index) ∧
    (∀ more s1, exec cfg s more = some s1 → counter0 + admissions ops + admissions more < 2 ^ 64 →
      ∃ evs, s1.trace = s.trace ++ evs ∧
        (∀ e ∈ s.sig_list_, (∃ e1 ∈ s1.sig_list_, e1.ptr = e.ptr ∧ e1.index = e.index) ∨
          Event.del e.ptr e.index ∈ evs) ∧
        (∀ i, i < s.counter_ → (∀ e ∈ s.sig_list_, e.index ≠ i) →
          ∀ e1 ∈ s1.sig_list_, e1.index ≠ i)) := by
  have h0 : (init counter0 mem).counter_ = counter0 := rfl
  obtain ⟨hinv, _, hcs, _, _, _⟩ :=
    exec_facts cfg ops (init counter0 mem) s (Inv_init counter0 mem) (by rw [h0]; omega) hex
  rw [h0] at hcs
  refine ⟨hinv.list.nodup, hinv.list.sorted, hinv.list.below, ?_, ?_, ?_, ?_⟩
  · intro env agent orig s1 p hA
    obtain ⟨_, _, hs1, hp⟩ := Alloc_ok hA
    subst hs1
    exact ⟨_, rfl, rfl, hp, rfl, hinv.list.below⟩
  · intro pre post env0 agent0 orig0 s0 hops hpre hco hho
    have hsplit : ops = (pre ++ [Op.alloc env0 agent0 orig0]) ++ post := by
      rw [hops]; simp
    have hone : admissions [Op.alloc env0 agent0 orig0] = 1 := rfl
    have hadm : admissions ops = admissions pre + 1 + admissions post := by
      rw [hops, admissions_append, admissions_cons, hone]
      omega
    rw [hsplit] at hex
    obtain ⟨s2, h2, hpost⟩ := (exec_append cfg _ post _ _).mp hex
    obtain ⟨s0b, hpreb, hstep⟩ := (exec_append cfg pre _ _ _).mp h2
    rw [hpre] at hpreb
    simp only [Option.some.injEq] at hpreb
    subst hpreb
    obtain ⟨hinv0, _, hc0, _, _, _⟩ :=
      exec_facts cfg pre (init counter0 mem) s0 (Inv_init counter0 mem) (by rw [h0]; omega) hpre
    rw [h0] at hc0
    obtain ⟨hinv2, _, _, _, _, _⟩ :=
      exec_facts cfg [Op.alloc env0 agent0 orig0] s0 s2 hinv0 (by omega) hstep
    have hc2 : s2.counter_ = s0.counter_ + 1 := by
      rw [exec_single] at hstep
      rw [step_alloc_counter hstep hco hho]
      exact Nat.mod_eq_of_lt (by omega)
    obtain ⟨_, hc3, _, _, _, _⟩ := exec_facts cfg post s2 s hinv2 (by omega) hpost
    omega
  · intro e he x hx
    have hne : x.ptr ≠ e.ptr := erase_ptr_ne hinv.list.nodup he x hx
    refine ⟨hne, ?_⟩
    intro hidx
    have hnd : (s.sig_list_.map (fun e => e.index)).Nodup :=
      hinv.list.sorted.imp (fun h => ne_of_lt h)
    have := List.inj_on_of_nodup_map hnd (List.mem_of_mem_eraseP hx) he hidx
    exact hne (by rw [this])
  · intro more s1 hmore hw
    obtain ⟨_, _, _, ⟨evs, ht, hm⟩, ho, _⟩ := exec_facts cfg more s s1 hinv (by omega) hmore
    refine ⟨evs, ht, ?_, ?_⟩
    · intro e he
      rcases hm e he with ⟨e1, he1, hk⟩ | hd
      · exact Or.inl ⟨e1, he1, congrArg Prod.fst hk, congrArg Prod.snd hk⟩
      · exact Or.inr hd
    · intro i hi hnot e1 he1 heq
      rcases ho e1 he1 with ⟨e, he, hk⟩ | hge
      · have : e.index = e1.index := congrArg Prod.snd hk
        exact hnot e he (by omega)
      · omega

/-- Claim C1 (ordered delivery): with `ordering_enabled_ = true`, in every state
reached from the initial state by a run of admissions, activations,
completion callbacks in any order, deletions and teardowns (fewer than `2^64`
admissions), the sequence indices of the entries whose handlers were called
are, in the order of the calls, non-decreasing, indeed strictly increasing,
and every called index lies below every index that is still live. -/
theorem ordered_delivery_in_admission_order (cfg : Config) (hord : cfg.ordering_enabled_ = true)
    (counter0 : Nat) (mem : Nat → amd_signal_t) (ops : List Op) (s : State)
    (hex : exec cfg (init counter0 mem) ops = some s) (hwrap : counter0 + admissions ops < 2 ^ 64) :
    (handled s.trace).Pairwise (fun a b => a ≤ b) ∧
    (handled s.trace).Pairwise (fun a b => a < b) ∧
    (∀ i ∈ handled s.trace, ∀ e ∈ s.sig_list_, i < e.index) := by
  have h0 : (init counter0 mem).counter_ = counter0 := rfl
  obtain ⟨_, _, _, _, _, ho⟩ :=
    exec_facts cfg ops (init counter0 mem) s (Inv_init counter0 mem) (by rw [h0]; omega) hex
  have hO := ho hord (OrdInv_init counter0 mem)
  exact ⟨hO.sorted.imp (fun h => le_of_lt h), hO.sorted, hO.before⟩

/-- Witness of C1: the run `wOps3` under ordered delivery, where B completes
before A; the handlers are called in the order A, B. -/
theorem ordered_delivery_in_admission_order_witness :
    exec cfgOrdered (init 0 wMem) wOps3 = some wState3 ∧ handled wState3.trace = [0, 1] ∧
    ((handled wState3.trace).Pairwise (fun a b => a ≤ b) ∧
     (handled wState3.trace).Pairwise (fun a b => a < b) ∧
     ∀ i ∈ handled wState3.trace, ∀ e ∈ wState3.sig_list_, i < e.index) :=
  ⟨rfl, by decide,
    ordered_delivery_in_admission_order cfgOrdered rfl 0 wMem wOps3 wState3 rfl (by decide)⟩

/-- Claim C2, evaluation at the failing input: with ordered delivery on, one
entry is admitted and enabled and its completion callback runs; the callback
returns with the entry still in the list, completed, and no handler called. -/
theorem ordered_walk_stops_before_back :
    (exec cfgOrdered (init 0 wMem) wOpsSingle).map
      (fun s => (s.sig_list_.map (fun e => (e.ptr, e.valid, e.handler)), s.trace)) =
      some ([(1, true, 77)], []) := by
  decide

/-- Witness of C3: original signal 10 holds 5 and the callback value is 4. -/
theorem complete_signal_pass_through_witness :
    (wState1c.mem wEntry1.orig).value = (wState1.mem wEntry1.orig).value - 1 ∧
    (wState1c.mem wEntry1.orig).start_ts = (wState1.mem wEntry1.signal).start_ts ∧
    (wState1c.mem wEntry1.orig).end_ts = (wState1.mem wEntry1.signal).end_ts :=
  complete_signal_pass_through (configured id) wHw 4 wEntry1 wState1 wState1c
    (by decide) (by decide) (by decide) rfl

/-- Witness of C7: the callback of the only live entry, value 4. -/
theorem immediate_delivery_without_ordering_witness :
    ∃ s1, Handler (configured id) wHw 4 1 wState1 = .ok (s1, false) ∧
      s1.trace = wState1.trace ++
        [Event.call 1 wEntry1.index wEntry1.handler 4 wEntry1.arg,
         Event.del 1 wEntry1.index] ∧
      ∃ l1 l2, wState1.sig_list_ = l1 ++ wEntry1 :: l2 ∧ s1.sig_list_ = l1 ++ l2 :=
  immediate_delivery_without_ordering (configured id) wHw 4 1 wEntry1 wState1 rfl (by decide)
    rfl (by decide) rfl (Or.inr (by decide))

/-- Witness of C8: value 3 against an original signal holding 5 aborts; an
entry without original signal is delivered. -/
theorem consistency_check_witness :
    ((∃ s1, Complete (configured id) wHw 3 wEntry1 wState1 = .aborted s1) ↔
      (wEntry1.orig ≠ 0 ∧ (3 : Int) ≠ (wState1.mem wEntry1.orig).value - 1)) ∧
    (∃ s1 s2, Complete (configured id) wHw 0 wEntry0 wState0 = .ok s1 ∧ s1.mem = wState0.mem ∧
        Handler (configured id) wHw 0 5 wState0 = .ok (s2, false) ∧ s2.mem = wState0.mem ∧
        s2.trace = wState0.trace ++
          [Event.call 5 wEntry0.index wEntry0.handler 0 wEntry0.arg,
           Event.del 5 wEntry0.index]) :=
  ⟨(consistency_check (configured id) wHw 3 1 wEntry1 wState1 rfl (by decide) rfl
      (fun _ => ⟨by decide, by decide⟩)).1,
   (consistency_check (configured id) wHw 0 5 wEntry0 wState0 rfl (by decide) rfl
      (fun h => absurd rfl h)).2.2 rfl rfl⟩

/-- Witness of C10: after `wOps3` under ordered delivery entry C (index 2) is live. -/
theorem live_list_invariant_witness :
    exec cfgOrdered (init 0 wMem) wOps3 = some wState3 ∧
    wState3.sig_list_.map (fun e => (e.ptr, e.index)) = [(3, 2)] ∧
    (wState3.sig_list_.map (fun e => e.ptr)).Nodup ∧
    (wState3.sig_list_.map (fun e => e.index)).Pairwise (fun a b => a < b) ∧
    (∀ e ∈ wState3.sig_list_, e.index < wState3.counter_) :=
  ⟨rfl, by decide,
    (live_list_invariant cfgOrdered 0 wMem wOps3 wState3 rfl (by decide)).1,
    (live_list_invariant cfgOrdered 0 wMem wOps3 wState3 rfl (by decide)).2.1,
    (live_list_invariant cfgOrdered 0 wMem wOps3 wState3 rfl (by decide)).2.2.1⟩

/-- Under ordered delivery a callback that returns never delivers the last
entry of the list, so it never leaves the list empty. -/
theorem ordered_callback_leaves_back (cfg : Config) (hw : CompleteEnv) (signal_value : Int)
    (p : Nat) (s s1 : State) (r : Bool) (hcfg : cfg.ordering_enabled_ = true)
    (h : Handler cfg hw signal_value p s = .ok (s1, r)) : s1.sig_list_ ≠ [] := by
  obtain ⟨entry, s3, _, _, _, _, hcase⟩ := Handler_ok h
  rcases hcase with ⟨ho, _⟩ | ⟨_, back, hb, _, hs2⟩
  · rw [hcfg] at ho
    cases ho
  · obtain ⟨l1, l2, h1, h2, _, h4, _, _, _, _⟩ :=
      walk_spec signal_value back.ptr s3.sig_list_ s3 rfl
    rw [← hs2] at h2
    have hmem : back ∈ s3.sig_list_ := List.mem_of_getLast?_eq_some hb
    rw [h1] at hmem
    rcases List.mem_append.mp hmem with hm | hm
    · exact absurd rfl (h4 back hm).2
    · rw [h2]
      exact List.ne_nil_of_mem hm

/-- Under the configured policy the handler of an entry with a present
original signal is called with the post-decrement value of that signal. -/
theorem handler_value_without_ordering (cfg : Config) (hw : CompleteEnv) (signal_value : Int)
    (p : Nat) (entry : entry_t) (s s1 : State) (r : Bool)
    (hcfg : cfg.ordering_enabled_ = false) (hlive : deref s p = some entry)
    (horig : entry.orig ≠ 0)
    (hlo : -(2 ^ 63) < (s.mem entry.orig).value) (hhi : (s.mem entry.orig).value < 2 ^ 63)
    (h : Handler cfg hw signal_value p s = .ok (s1, r)) :
    signal_value = (s.mem entry.orig).value - 1 ∧
    (s1.mem entry.orig).value = signal_value ∧
    s1.trace = s.trace ++
      [Event.call p entry.index entry.handler signal_value entry.arg,
       Event.del p entry.index] := by
  obtain ⟨e, s3, hd, _, hC, _, hcase⟩ := Handler_ok h
  rw [hlive] at hd
  simp only [Option.some.injEq] at hd
  subst hd
  have hptr := deref_ptr hlive
  obtain ⟨h1, _, _⟩ := complete_value entry cfg hw signal_value s s3 horig hlo hhi hC
  rcases hcase with ⟨_, hs2⟩ | ⟨ho, _⟩
  · obtain ⟨m, hs3⟩ := Complete_ok hC
    refine ⟨h1.1, ?_, ?_⟩
    · rw [hs2]
      exact h1.2
    · rw [hs2, hs3, ← hptr]
      simp [HandleEntry, Delete, stamped]
  · rw [hcfg] at ho
    cases ho


theorem untouched_of_not_mem {l : List entry_t} {q : Nat}
    (h : q ∉ l.map (fun e => e.ptr)) {e : entry_t} (he : e ∈ l) : q ≠ e.ptr := by
  intro hh
  apply h
  rw [hh]
  exact List.mem_map_of_mem _ he

/-- What one step does to the list and which handler calls it logs. -/
theorem step_view (cfg : Config) (s s1 : State) (op : Op)
    (hn : (s.sig_list_.map (fun e => e.ptr)).Nodup) (h : step cfg s op = some s1) :
    ((∃ l0, l0.map (fun e => e.ptr) = s.sig_list_.map (fun e => e.ptr) ∧
        s1.sig_list_.Sublist l0 ∧
        ∀ e1 ∈ s1.sig_list_, ∃ e ∈ s.sig_list_, From cfg op s e e1) ∨
     (∃ env agent orig, op = Op.alloc env agent orig ∧
        env.ptr ∉ s.sig_list_.map (fun e => e.ptr) ∧
        s1.sig_list_ = s.sig_list_ ++ [fresh env agent orig s.counter_])) ∧
    ∃ evs, s1.trace = s.trace ++ evs ∧
      ∀ p i fn v a, Event.call p i fn v a ∈ evs →
        ∃ hw q entry s3, op = Op.handler hw v q ∧ deref s q = some entry ∧
          entry.handler ≠ 0 ∧ Complete cfg hw v entry s = .ok s3 ∧
          ∃ e ∈ s.sig_list_, e.ptr = p ∧ e.index = i ∧ e.handler = fn ∧ e.arg = a ∧
            (e = entry ∨ (cfg.ordering_enabled_ = true ∧ e.valid = true)) := by
  have keep : ∀ (l1 : List entry_t), l1.Sublist s.sig_list_ →
      (∀ e ∈ s.sig_list_, Untouched e.ptr op) →
      ∃ l0, l0.map (fun e => e.ptr) = s.sig_list_.map (fun e => e.ptr) ∧ l1.Sublist l0 ∧
        ∀ e1 ∈ l1, ∃ e ∈ s.sig_list_, From cfg op s e e1 := by
    intro l1 hsub hu
    exact ⟨s.sig_list_, rfl, hsub, fun e1 he1 =>
      ⟨e1, hsub.subset he1, From.same rfl (hu e1 (hsub.subset he1))⟩⟩
  have nocall : ∀ evs : List Event, (∀ p i fn v a, Event.call p i fn v a ∉ evs) →
      ∀ p i fn v a, Event.call p i fn v a ∈ evs →
        ∃ hw q entry s3, op = Op.handler hw v q ∧ deref s q = some entry ∧
          entry.handler ≠ 0 ∧ Complete cfg hw v entry s = .ok s3 ∧
          ∃ e ∈ s.sig_list_, e.ptr = p ∧ e.index = i ∧ e.handler = fn ∧ e.arg = a ∧
            (e = entry ∨ (cfg.ordering_enabled_ = true ∧ e.valid = true)) := by
    intro evs hno p i fn v a hm
    exact absurd hm (hno p i fn v a)
  cases op with
  | create =>
    simp only [step, Option.some.injEq] at h
    subst h
    refine ⟨Or.inl ?_, [], by simp [Create]; split <;> rfl, nocall [] (by simp)⟩
    by_cases hi : s.instance_ = false
    · simp only [Create, hi, if_true]
      exact keep [] (List.nil_sublist _) (fun e _ => trivial)
    · simp only [Create, hi, if_false]
      exact keep _ (List.Sublist.refl _) (fun e _ => trivial)
  | destroy =>
    simp only [step] at h
    cases hd : Destroy s with
    | ok s2 =>
      rw [hd] at h
      simp only [Option.some.injEq] at h
      subst h
      obtain ⟨_, _, _, h4⟩ := Destroy_ok hd
      rcases h4 with ⟨_, hl, ht⟩ | ⟨_, hl, ht⟩
      · refine ⟨Or.inl ?_, _, ht, nocall _ ?_⟩
        · rw [hl]
          exact keep [] (List.nil_sublist _) (fun e _ => trivial)
        · intro p i fn v a hm
          obtain ⟨e, _, hev⟩ := List.mem_flatMap.mp hm
          simp [teardownEvents] at hev
      · refine ⟨Or.inl ?_, [], by simp [ht], nocall [] (by simp)⟩
        rw [hl]
        exact keep _ (List.Sublist.refl _) (fun e _ => trivial)
    | spin s2 => simp [hd] at h
    | raised s2 => simp [hd] at h
    | aborted s2 => simp [hd] at h
    | fault => simp [hd] at h
  | alloc env agent orig =>
    simp only [step] at h
    split at h
    · rename_i hg
      obtain ⟨_, hfresh⟩ := hg
      have hu : ∀ e ∈ s.sig_list_, Untouched e.ptr (Op.alloc env agent orig) :=
        fun e he => untouched_of_not_mem hfresh he
      cases hco : env.create_ok <;> cases hho : env.handler_ok <;>
        simp only [Alloc, hco, hho, if_true, if_false, Bool.true_eq_false, Bool.false_eq_true,
          Option.some.injEq] at h <;> subst h
      · exact ⟨Or.inl (keep _ (List.Sublist.refl _) hu), [], by simp, nocall [] (by simp)⟩
      · exact ⟨Or.inl (keep _ (List.Sublist.refl _) hu), [], by simp, nocall [] (by simp)⟩
      · exact ⟨Or.inl (keep _ (List.Sublist.refl _) hu), [], by simp, nocall [] (by simp)⟩
      · exact ⟨Or.inr ⟨env, agent, orig, rfl, hfresh, rfl⟩, [], by simp, nocall [] (by simp)⟩
    · cases h
  | enableDispatch p handler arg =>
    simp only [step] at h
    split at h
    · simp only [Option.some.injEq] at h
      subst h
      refine ⟨Or.inl ?_, [], by simp [EnableDispatch, Enable], nocall [] (by simp)⟩
      simp only [EnableDispatch, Enable]
      rw [modify_modify _ _ _ (by intro x; rfl)]
      refine ⟨_, modify_map_ptr _ _ (by intro x; rfl) _, List.Sublist.refl _, ?_⟩
      intro e1 he1
      obtain ⟨x, hx, rfl⟩ := mem_modify he1
      refine ⟨x, hx, ?_⟩
      by_cases hxp : x.ptr = p
      · rw [if_pos hxp]
        exact From.enabled p handler arg false (Or.inl ⟨rfl, rfl⟩) hxp rfl
      · rw [if_neg hxp]
        exact From.same rfl (fun hh => hxp hh.symm)
    · cases h
  | enableMemcopy p handler arg =>
    simp only [step] at h
    split at h
    · simp only [Option.some.injEq] at h
      subst h
      refine ⟨Or.inl ?_, [], by simp [EnableMemcopy, Enable], nocall [] (by simp)⟩
      simp only [EnableMemcopy, Enable]
      rw [modify_modify _ _ _ (by intro x; rfl)]
      refine ⟨_, modify_map_ptr _ _ (by intro x; rfl) _, List.Sublist.refl _, ?_⟩
      intro e1 he1
      obtain ⟨x, hx, rfl⟩ := mem_modify he1
      refine ⟨x, hx, ?_⟩
      by_cases hxp : x.ptr = p
      · rw [if_pos hxp]
        exact From.enabled p handler arg true (Or.inr ⟨rfl, rfl⟩) hxp rfl
      · rw [if_neg hxp]
        exact From.same rfl (fun hh => hxp hh.symm)
    · cases h
  | handler hw v p =>
    simp only [step] at h
    split at h
    · cases hH : Handler cfg hw v p s with
      | ok r =>
        obtain ⟨s2, b⟩ := r
        rw [hH] at h
        simp only [Option.some.injEq] at h
        subst h
        obtain ⟨entry, s3, hd, hpub, hC, _, hcase⟩ := Handler_ok hH
        obtain ⟨m, hs3⟩ := Complete_ok hC
        have hptr := deref_ptr hd
        have hl3 : s3.sig_list_ = modify entry.ptr (stampEntry cfg hw entry) s.sig_list_ := by
          rw [hs3]; rfl
        have ht3 : s3.trace = s.trace := by rw [hs3]; rfl
        have hptr3 : s3.sig_list_.map (fun e => e.ptr) = s.sig_list_.map (fun e => e.ptr) := by
          rw [hl3]; exact modify_map_ptr _ _ (by intro x; rfl) _
        have hn3 : (s3.sig_list_.map (fun e => e.ptr)).Nodup := by rw [hptr3]; exact hn
        have hx0 := mem_modify_of_mem entry.ptr (stampEntry cfg hw entry) (deref_mem hd)
        rw [if_pos rfl, ← hl3] at hx0
        have hfrom : ∀ e3 ∈ s3.sig_list_, ∃ x ∈ s.sig_list_,
            e3.ptr = x.ptr ∧ e3.index = x.index ∧ e3.handler = x.handler ∧ e3.arg = x.arg ∧
            ((x = entry ∧ e3 = stampEntry cfg hw entry entry) ∨
             (x.ptr ≠ entry.ptr ∧ e3 = x)) := by
          intro e3 he3
          rw [hl3] at he3
          obtain ⟨x, hx, rfl⟩ := mem_modify he3
          refine ⟨x, hx, ?_⟩
          by_cases hxp : x.ptr = entry.ptr
          · have hxe : x = entry := eq_of_ptr_eq hn hx (deref_mem hd) hxp
            rw [if_pos hxp, hxe]
            exact ⟨rfl, rfl, rfl, rfl, Or.inl ⟨rfl, rfl⟩⟩
          · rw [if_neg hxp]
            exact ⟨rfl, rfl, rfl, rfl, Or.inr ⟨hxp, rfl⟩⟩
        rcases hcase with ⟨ho, hs2⟩ | ⟨ho, back, _, _, hs2⟩
        · have hl2 : s2.sig_list_ = s3.sig_list_.eraseP
              (fun y => decide (y.ptr = (stampEntry cfg hw entry entry).ptr)) := by
            rw [hs2]; rfl
          refine ⟨Or.inl ⟨s3.sig_list_, hptr3, by rw [hl2]; exact List.eraseP_sublist _, ?_⟩,
            deliveryEvents v entry, ?_, ?_⟩
          · intro e1 he1
            rw [hl2] at he1
            have hne := erase_ptr_ne hn3 hx0 e1 he1
            obtain ⟨x, hx, h1, _, _, _, hc⟩ := hfrom e1 (List.mem_of_mem_eraseP he1)
            rcases hc with ⟨_, he⟩ | ⟨_, he⟩
            · rw [he] at hne
              exact absurd rfl hne
            · exact ⟨x, hx, From.same he trivial⟩
          · rw [hs2]
            simp [HandleEntry, Delete, ht3, deliveryEvents]
          · intro q i fn w a hm
            simp only [deliveryEvents, List.mem_cons, Event.call.injEq, List.mem_singleton,
              List.not_mem_nil, or_false] at hm
            rcases hm with ⟨rfl, rfl, rfl, rfl, rfl⟩ | hm
            · refine ⟨hw, p, entry, s3, rfl, hd, hpub, hC, entry, deref_mem hd, rfl, rfl, rfl, rfl,
                Or.inl rfl⟩
            · cases hm
        · obtain ⟨l1, l2, h1, h2, h3, h4, _, _, _, _⟩ := walk_spec v back.ptr s3.sig_list_ s3 rfl
          rw [← hs2] at h2 h3
          refine ⟨Or.inl ⟨s3.sig_list_, hptr3, by rw [h2, h1]; exact List.sublist_append_right _ _,
            ?_⟩, l1.flatMap (deliveryEvents v), by rw [h3, ht3], ?_⟩
          · intro e1 he1
            rw [h2] at he1
            obtain ⟨x, hx, _, _, _, _, hc⟩ :=
              hfrom e1 (by rw [h1]; exact List.mem_append_right _ he1)
            rcases hc with ⟨hxe, he⟩ | ⟨_, he⟩
            · subst hxe
              refine ⟨x, hx, From.completed hw v p s3 rfl hd hpub hC ho he⟩
            · exact ⟨x, hx, From.same he trivial⟩
          · intro q i fn w a hm
            obtain ⟨e3, he3, hev⟩ := List.mem_flatMap.mp hm
            simp only [deliveryEvents, List.mem_cons, Event.call.injEq, List.mem_singleton,
              List.not_mem_nil, or_false] at hev
            rcases hev with ⟨rfl, rfl, rfl, rfl, rfl⟩ | hev
            · obtain ⟨x, hx, hp1, hp2, hp3, hp4, hc⟩ :=
                hfrom e3 (by rw [h1]; exact List.mem_append_left _ he3)
              refine ⟨hw, p, entry, s3, rfl, hd, hpub, hC, x, hx, hp1.symm, hp2.symm, hp3.symm,
                hp4.symm, ?_⟩
              rcases hc with ⟨hxe, _⟩ | ⟨_, he⟩
              · exact Or.inl hxe
              · right
                rw [← he]
                exact ⟨ho, (h4 e3 he3).1⟩
            · cases hev
      | spin s2 => simp [hH] at h
      | raised s2 => simp [hH] at h
      | aborted s2 => simp [hH] at h
      | fault => simp [hH] at h
    · cases h
  | delete p =>
    simp only [step] at h
    split at h
    · cases hd : deref s p with
      | none => simp [hd] at h
      | some entry =>
        rw [hd] at h
        simp only [Option.some.injEq] at h
        subst h
        refine ⟨Or.inl (keep _ (List.eraseP_sublist _) (fun e _ => trivial)),
          [Event.del entry.ptr entry.index], rfl, nocall _ (by simp)⟩
    · cases h
  | write hd v =>
    simp only [step, Option.some.injEq] at h
    subst h
    exact ⟨Or.inl (keep _ (List.Sublist.refl _) (fun e _ => trivial)), [], by simp,
      nocall [] (by simp)⟩

theorem exec_snoc (cfg : Config) (s s1 : State) (l : List Op) (op : Op) :
    exec cfg s (l ++ [op]) = some s1 ↔ ∃ s0, exec cfg s l = some s0 ∧ step cfg s0 op = some s1 := by
  rw [exec_append]
  simp only [exec_single]

/-- Induction along a run: a property of (history, state) that holds at the
start and is kept by every step of the run holds at every point of the run. -/
theorem run_induction (cfg : Config) (s_init : State) (ops : List Op)
    (P : List Op → State → Prop) (h0 : P [] s_init)
    (hstep : ∀ pre op post s0 s1, ops = pre ++ op :: post → exec cfg s_init pre = some s0 →
      step cfg s0 op = some s1 → P pre s0 → P (pre ++ [op]) s1) :
    ∀ pre post s0, ops = pre ++ post → exec cfg s_init pre = some s0 → P pre s0 := by
  intro pre
  induction pre using List.reverseRecOn with
  | nil =>
    intro post s0 _ h
    simp only [exec, Option.some.injEq] at h
    subst h
    exact h0
  | append_singleton l op ih =>
    intro post s1 hops h
    obtain ⟨s0, hl, hst⟩ := (exec_snoc cfg s_init s1 l op).mp h
    have hops2 : ops = l ++ op :: post := by rw [hops]; simp
    exact hstep l op post s0 s1 hops2 hl hst (ih (op :: post) s0 hops2 hl)

theorem submitted_snoc (hist : List Op) (op : Op) (p : Nat) :
    submitted (hist ++ [op]) p = submittedBy p (submitted hist p) op := by
  simp [submitted, List.foldl_append]

theorem untouched_published {q : Nat} {op : Op} (h : Untouched q op) (acc : Option (Nat × Nat)) :
    publishedBy q acc op = acc := by
  cases op <;> simp_all [Untouched, publishedBy]

theorem untouched_submitted {q : Nat} {op : Op} (h : Untouched q op) (acc : Option Nat) :
    submittedBy q acc op = acc := by
  cases op <;> simp_all [Untouched, submittedBy]

theorem Base_init (cfg : Config) (counter0 : Nat) (mem : Nat → amd_signal_t) :
    Base cfg [] (init counter0 mem) :=
  ⟨by simp [init], by simp [init], by simp [init], by simp [init]⟩

theorem Base_step (cfg : Config) (hist : List Op) (s s1 : State) (op : Op)
    (hB : Base cfg hist s) (h : step cfg s op = some s1) : Base cfg (hist ++ [op]) s1 := by
  obtain ⟨hlist, _⟩ := step_view cfg s s1 op hB.nodup h
  rcases hlist with ⟨l0, hptr, hsub, hfrom⟩ | ⟨env, agent, orig, rfl, hfresh, hl⟩
  · refine ⟨?_, ?_, ?_, ?_⟩
    · have : (l0.map (fun e => e.ptr)).Nodup := by rw [hptr]; exact hB.nodup
      exact this.sublist (hsub.map _)
    · intro e1 he1
      obtain ⟨e, he, hf⟩ := hfrom e1 he1
      rw [published_snoc]
      cases hf with
      | same h hq =>
        subst h
        rw [untouched_published hq]
        exact hB.exact e1 he
      | enabled p handler arg b hop hp h =>
        subst h
        right
        rcases hop with ⟨rfl, _⟩ | ⟨rfl, _⟩ <;> simp [publishedBy, hp]
      | completed hw v p s3 hop hd hpub hC hord h =>
        subst h
        subst hop
        exact hB.exact e he
    · intro e1 he1 hv
      obtain ⟨e, he, hf⟩ := hfrom e1 he1
      cases hf with
      | same h hq =>
        subst h
        exact hB.val e1 he hv
      | enabled p handler arg b hop hp h =>
        subst h
        exact hB.val e he hv
      | completed hw v p s3 hop hd hpub hC hord h => exact hord
    · intro e1 he1
      obtain ⟨e, he, hf⟩ := hfrom e1 he1
      rw [submitted_snoc]
      cases hf with
      | same h hq =>
        subst h
        rw [untouched_submitted hq]
        exact hB.sub e1 he
      | enabled p handler arg b hop hp h =>
        subst h
        rcases hop with ⟨rfl, _⟩ | ⟨rfl, _⟩ <;> exact hB.sub e he
      | completed hw v p s3 hop hd hpub hC hord h =>
        subst h
        subst hop
        exact hB.sub e he
  · have hu : ∀ e ∈ s.sig_list_, Untouched e.ptr (Op.alloc env agent orig) :=
      fun e he => untouched_of_not_mem hfresh he
    refine ⟨?_, ?_, ?_, ?_⟩
    · rw [hl, List.map_append, List.nodup_append]
      refine ⟨hB.nodup, by simp, ?_⟩
      intro a ha hb
      simp only [List.map_cons, List.map_nil, List.mem_singleton] at hb
      subst hb
      exact hfresh ha
    · intro e1 he1
      rw [hl] at he1
      rw [published_snoc]
      rcases List.mem_append.mp he1 with hm | hm
      · rw [untouched_published (hu e1 hm)]
        exact hB.exact e1 hm
      · simp only [List.mem_singleton] at hm
        subst hm
        left
        simp [publishedBy, fresh]
    · intro e1 he1 hv
      rw [hl] at he1
      rcases List.mem_append.mp he1 with hm | hm
      · exact hB.val e1 hm hv
      · simp only [List.mem_singleton] at hm
        subst hm
        simp [fresh] at hv
    · intro e1 he1
      rw [hl] at he1
      rw [submitted_snoc]
      rcases List.mem_append.mp he1 with hm | hm
      · rw [untouched_submitted (hu e1 hm)]
        exact hB.sub e1 hm
      · simp only [List.mem_singleton] at hm
        subst hm
        simp [submittedBy, fresh]

/-- The invariant `Base` holds at every point of a run from the initial state. -/
theorem Base_run (cfg : Config) (counter0 : Nat) (mem : Nat → amd_signal_t) (ops : List Op)
    (pre post : List Op) (s0 : State) (hops : ops = pre ++ post)
    (hex : exec cfg (init counter0 mem) pre = some s0) : Base cfg pre s0 :=
  run_induction cfg (init counter0 mem) ops (fun hist s => Base cfg hist s)
    (Base_init cfg counter0 mem)
    (fun pre op _ s0 s1 _ _ hst hB => Base_step cfg pre s0 s1 op hB hst) pre post s0 hops hex

theorem PubVal_run (cfg : Config) (counter0 : Nat) (mem : Nat → amd_signal_t) (ops : List Op)
    (pre post : List Op) (s0 : State) (hops : ops = pre ++ post)
    (hex : exec cfg (init counter0 mem) pre = some s0) (hpub : ∀ op ∈ pre, publishes op) :
    ∀ e ∈ s0.sig_list_, e.valid = true → e.handler ≠ 0 := by
  refine run_induction cfg (init counter0 mem) ops
    (fun hist s => (∀ op ∈ hist, publishes op) → ∀ e ∈ s.sig_list_, e.valid = true → e.handler ≠ 0)
    ?_ ?_ pre post s0 hops hex hpub
  · intro _ e he
    simp [init] at he
  · intro hist op rest s s1 hsplit hs hst ih hp e1 he1 hv
    have hB := Base_run cfg counter0 mem ops hist (op :: rest) s hsplit hs
    have ihh := ih (fun o ho => hp o (List.mem_append_left _ ho))
    have hpo : publishes op := hp op (List.mem_append_right _ (List.mem_singleton_self _))
    obtain ⟨hlist, _⟩ := step_view cfg s s1 op hB.nodup hst
    rcases hlist with ⟨l0, _, _, hfrom⟩ | ⟨env, agent, orig, _, _, hl⟩
    · obtain ⟨e, he, hf⟩ := hfrom e1 he1
      cases hf with
      | same h hq =>
        subst h
        exact ihh e1 he hv
      | enabled p handler arg b hop hpp h =>
        subst h
        rcases hop with ⟨rfl, _⟩ | ⟨rfl, _⟩ <;> exact hpo
      | completed hw v p s3 hop hd hpub2 hC hord h =>
        subst h
        exact hpub2
    · rw [hl] at he1
      rcases List.mem_append.mp he1 with hm | hm
      · exact ihh e1 hm hv
      · simp only [List.mem_singleton] at hm
        subst hm
        simp [fresh] at hv

theorem calls_published (cfg : Config) (counter0 : Nat) (mem : Nat → amd_signal_t)
    (ops : List Op) (hpol : cfg.ordering_enabled_ = false ∨ ∀ op ∈ ops, publishes op)
    (pre : List Op) (op : Op) (post : List Op) (s0 s1 : State) (hops : ops = pre ++ op :: post)
    (hpre : exec cfg (init counter0 mem) pre = some s0) (hst : step cfg s0 op = some s1) :
    ∃ evs, s1.trace = s0.trace ++ evs ∧
      ∀ p i fn v a, Event.call p i fn v a ∈ evs →
        fn ≠ 0 ∧ published pre p = some (fn, a) ∧
        ∃ e ∈ s0.sig_list_, e.ptr = p ∧ e.index = i ∧ e.handler = fn ∧ e.arg = a := by
  have hB0 := Base_run cfg counter0 mem ops pre (op :: post) s0 hops hpre
  obtain ⟨_, evs, ht, hcalls⟩ := step_view cfg s0 s1 op hB0.nodup hst
  refine ⟨evs, ht, ?_⟩
  intro p i fn v a hm
  obtain ⟨hw, q, entry, s3, _, _, hpub, _, e, he, hp, hi, hfn, ha, hc⟩ := hcalls p i fn v a hm
  have hne : fn ≠ 0 := by
    rcases hc with hc | ⟨hord, hv⟩
    · rw [← hfn, hc]
      exact hpub
    · rcases hpol with hu | hp2
      · rw [hu] at hord
        cases hord
      · rw [← hfn]
        exact PubVal_run cfg counter0 mem ops pre (op :: post) s0 hops hpre
          (fun o ho => hp2 o (by rw [hops]; exact List.mem_append_left _ ho)) e he hv
  refine ⟨hne, ?_, e, he, hp, hi, hfn, ha⟩
  rcases hB0.exact e he with ⟨_, h0⟩ | hs
  · rw [hfn] at h0
    exact absurd h0 hne
  · rw [hp, hfn, ha] at hs
    exact hs

theorem calls_covered (cfg : Config) (counter0 : Nat) (mem : Nat → amd_signal_t)
    (ops : List Op) (s : State) (hex : exec cfg (init counter0 mem) ops = some s) :
    ∀ p i fn v a, Event.call p i fn v a ∈ s.trace →
      ∃ pre op post s0 s1 evs, ops = pre ++ op :: post ∧
        exec cfg (init counter0 mem) pre = some s0 ∧ step cfg s0 op = some s1 ∧
        s1.trace = s0.trace ++ evs ∧ Event.call p i fn v a ∈ evs := by
  refine run_induction cfg (init counter0 mem) ops
    (fun hist st => ∀ p i fn v a, Event.call p i fn v a ∈ st.trace →
      ∃ pre op post s0 s1 evs, hist = pre ++ op :: post ∧
        exec cfg (init counter0 mem) pre = some s0 ∧ step cfg s0 op = some s1 ∧
        s1.trace = s0.trace ++ evs ∧ Event.call p i fn v a ∈ evs)
    ?_ ?_ ops [] s (by simp) hex
  · intro p i fn v a hm
    simp [init] at hm
  · intro hist op rest s0 s1 hsplit hs hst ih p i fn v a hm
    have hB0 := Base_run cfg counter0 mem ops hist (op :: rest) s0 hsplit hs
    obtain ⟨_, evs, ht, _⟩ := step_view cfg s0 s1 op hB0.nodup hst
    rw [ht] at hm
    rcases List.mem_append.mp hm with hm | hm
    · obtain ⟨pre, op2, post, sA, sB, evs2, h1, h2, h3, h4, h5⟩ := ih p i fn v a hm
      exact ⟨pre, op2, post ++ [op], sA, sB, evs2, by rw [h1]; simp, h2, h3, h4, h5⟩
    · exact ⟨hist, op, [], s0, s1, evs, rfl, hs, hst, ht, hm⟩

/-- Claim C5 (no early delivery): in every state reached from the initial
state, under the configured policy or when no `Enable*` of the run stores a
null handler: (1) the callback of a live entry whose handler is unpublished
(null) spins in the unchanged state, so nothing is captured, written, called
or deleted, and the callback is no step of a run; (2) the handler and argument
of every live entry are exactly what the last `Enable*` on it since its
admission stored, and null when there was none; (3) every handler call that a
step of the run logs calls a non-null function, namely the handler of that
entry at that moment, which is the one published by the last `Enable*` on it
before the step, with the argument of that `Enable*`; (4) every call in the
final log is logged by a step of the run. -/
theorem no_early_delivery (cfg : Config) (counter0 : Nat) (mem : Nat → amd_signal_t)
    (ops : List Op) (s : State)
    (hpol : cfg.ordering_enabled_ = false ∨ ∀ op ∈ ops, publishes op)
    (hex : exec cfg (init counter0 mem) ops = some s) :
    (∀ hw v, ∀ e ∈ s.sig_list_, e.handler = 0 →
      Handler cfg hw v e.ptr s = .spin s ∧ step cfg s (Op.handler hw v e.ptr) = none) ∧
    (∀ e ∈ s.sig_list_, (published ops e.ptr = none ∧ e.handler = 0) ∨
      published ops e.ptr = some (e.handler, e.arg)) ∧
    (∀ pre op post s0 s1, ops = pre ++ op :: post →
      exec cfg (init counter0 mem) pre = some s0 → step cfg s0 op = some s1 →
      ∃ evs, s1.trace = s0.trace ++ evs ∧
        ∀ p i fn v a, Event.call p i fn v a ∈ evs →
          fn ≠ 0 ∧ published pre p = some (fn, a) ∧
          ∃ e ∈ s0.sig_list_, e.ptr = p ∧ e.index = i ∧ e.handler = fn ∧ e.arg = a) ∧
    (∀ p i fn v a, Event.call p i fn v a ∈ s.trace →
      ∃ pre op post s0 s1 evs, ops = pre ++ op :: post ∧
        exec cfg (init counter0 mem) pre = some s0 ∧ step cfg s0 op = some s1 ∧
        s1.trace = s0.trace ++ evs ∧ Event.call p i fn v a ∈ evs) := by
  have hB := Base_run cfg counter0 mem ops ops [] s (by simp) hex
  refine ⟨?_, hB.exact, ?_, calls_covered cfg counter0 mem ops s hex⟩
  · intro hw v e he hnull
    have hH := Handler_unpublished cfg hw v e.ptr s e (deref_of_mem hB.nodup he) hnull
    refine ⟨hH, ?_⟩
    simp only [step, hH]
    split <;> rfl
  · intro pre op post s0 s1 hops hpre hst
    exact calls_published cfg counter0 mem ops hpol pre op post s0 s1 hops hpre hst

theorem complete_raw {cfg : Config} {hw : CompleteEnv} {v : Int} {entry : entry_t}
    {s s1 : State} (h : Complete cfg hw v entry s = .ok s1) (horig : entry.orig ≠ 0) :
    (s1.mem entry.orig).value = v ∧ v = toInt64 ((s.mem entry.orig).value - 1) ∧
    (-(2 ^ 63) < (s.mem entry.orig).value → (s.mem entry.orig).value < 2 ^ 63 →
      v = (s.mem entry.orig).value - 1) := by
  rw [Complete_eq] at h
  by_cases hq : (queryOf hw entry).status_ok = false
  · simp [hq] at h
  · by_cases hv : v = toInt64 ((s.mem entry.orig).value - 1)
    · rw [if_neg hq, if_neg horig, if_pos hv] at h
      simp only [Outcome.ok.injEq] at h
      subst h
      refine ⟨by simp [released, store], hv, ?_⟩
      intro h1 h2
      rw [hv]
      exact toInt64_of_range _ (by omega) (by omega)
    · rw [if_neg hq, if_neg horig, if_neg hv] at h
      cases h

theorem OwnCompletion_snoc {cfg : Config} {counter0 : Nat} {mem : Nat → amd_signal_t}
    {hist : List Op} {p i : Nat} {v : Int} (h : OwnCompletion cfg counter0 mem hist p i v)
    (op : Op) : OwnCompletion cfg counter0 mem (hist ++ [op]) p i v := by
  obtain ⟨own, rest, hw, e0, sA, sB, h1, h2⟩ := h
  exact ⟨own, rest ++ [op], hw, e0, sA, sB, by rw [h1]; simp, h2⟩

theorem OwnCompletion_here {cfg : Config} {counter0 : Nat} {mem : Nat → amd_signal_t}
    {hist : List Op} {s s3 : State} {hw : CompleteEnv} {v : Int} {p : Nat} {e : entry_t}
    (hs : exec cfg (init counter0 mem) hist = some s) (hd : deref s p = some e)
    (hC : Complete cfg hw v e s = .ok s3) :
    OwnCompletion cfg counter0 mem (hist ++ [Op.handler hw v p]) p e.index v :=
  ⟨hist, [], hw, e, s, s3, rfl, hs, hd, rfl, hC, fun ho => complete_raw hC ho⟩

/-- Every completed entry that is still live has its own completion in the history. -/
theorem Done_run (cfg : Config) (counter0 : Nat) (mem : Nat → amd_signal_t) (ops : List Op)
    (pre post : List Op) (s0 : State) (hops : ops = pre ++ post)
    (hex : exec cfg (init counter0 mem) pre = some s0) :
    ∀ e ∈ s0.sig_list_, e.valid = true →
      ∃ v, OwnCompletion cfg counter0 mem pre e.ptr e.index v := by
  refine run_induction cfg (init counter0 mem) ops
    (fun hist s => ∀ e ∈ s.sig_list_, e.valid = true →
      ∃ v, OwnCompletion cfg counter0 mem hist e.ptr e.index v)
    ?_ ?_ pre post s0 hops hex
  · intro e he
    simp [init] at he
  · intro hist op rest s s1 hsplit hs hst ih e1 he1 hv
    have hB := Base_run cfg counter0 mem ops hist (op :: rest) s hsplit hs
    obtain ⟨hlist, _⟩ := step_view cfg s s1 op hB.nodup hst
    rcases hlist with ⟨l0, _, _, hfrom⟩ | ⟨env, agent, orig, _, _, hl⟩
    · obtain ⟨e, he, hf⟩ := hfrom e1 he1
      cases hf with
      | same h hq =>
        subst h
        obtain ⟨v, hv2⟩ := ih e1 he hv
        exact ⟨v, OwnCompletion_snoc hv2 op⟩
      | enabled p handler arg b hop hpp h =>
        subst h
        obtain ⟨v, hv2⟩ := ih e he hv
        exact ⟨v, OwnCompletion_snoc hv2 op⟩
      | completed hw v p s3 hop hd hpub2 hC hord h =>
        subst h
        subst hop
        have hp := deref_ptr hd
        subst hp
        have hown := OwnCompletion_here hs hd hC
        exact ⟨v, hown⟩
    · rw [hl] at he1
      rcases List.mem_append.mp he1 with hm | hm
      · obtain ⟨v, hv2⟩ := ih e1 hm hv
        exact ⟨v, OwnCompletion_snoc hv2 _⟩
      · simp only [List.mem_singleton] at hm
        subst hm
        simp [fresh] at hv

theorem readings_append (a b : List Op) : readings (a ++ b) = readings a ++ readings b := by
  induction a with
  | nil => simp [readings]
  | cons op a ih => cases op <;> simp [readings, ih]

theorem submitted_mem_readings (hist : List Op) (p t : Nat) (h : submitted hist p = some t) :
    t ∈ readings hist := by
  induction hist using List.reverseRecOn with
  | nil => simp [submitted] at h
  | append_singleton l op ih =>
    rw [submitted_snoc] at h
    rw [readings_append]
    cases op with
    | alloc env agent orig =>
      simp only [submittedBy] at h
      by_cases hp : env.ptr = p
      · rw [if_pos hp] at h
        simp only [Option.some.injEq] at h
        simp [readings, h]
      · rw [if_neg hp] at h
        exact List.mem_append_left _ (ih h)
    | create => exact List.mem_append_left _ (ih h)
    | destroy => exact List.mem_append_left _ (ih h)
    | enableDispatch q hh a => exact List.mem_append_left _ (ih h)
    | enableMemcopy q hh a => exact List.mem_append_left _ (ih h)
    | handler hw v q => exact List.mem_append_left _ (ih h)
    | delete q => exact List.mem_append_left _ (ih h)
    | write hh v => exact List.mem_append_left _ (ih h)

theorem hardwareTimed_split (cfg : Config) (rest : List Op) : ∀ (s : State) (hist : List Op),
    hardwareTimedFrom cfg s hist rest = true →
    ∀ pre hw v p post s0 e t, rest = pre ++ Op.handler hw v p :: post →
      exec cfg s pre = some s0 → deref s0 p = some e → submitted (hist ++ pre) p = some t →
      hardwareInterval cfg hw e t = true := by
  induction rest with
  | nil =>
    intro s hist _ pre hw v p post s0 e t hsplit
    simp at hsplit
  | cons op rest ih =>
    intro s hist ht pre hw v p post s0 e t hsplit hpre hd hsub
    simp only [hardwareTimedFrom, Bool.and_eq_true] at ht
    cases pre with
    | nil =>
      simp only [List.nil_append, List.cons.injEq] at hsplit
      simp only [exec, Option.some.injEq] at hpre
      subst hpre
      rw [List.append_nil] at hsub
      have h1 := ht.1
      rw [hsplit.1] at h1
      simp only [hd, hsub] at h1
      exact h1
    | cons op2 pre2 =>
      simp only [List.cons_append, List.cons.injEq] at hsplit
      obtain ⟨hop, hrest⟩ := hsplit
      subst hop
      simp only [exec] at hpre
      cases hst : step cfg s op with
      | none => simp [hst] at hpre
      | some s1 =>
        rw [hst] at hpre
        have h2 := ht.2
        rw [hst] at h2
        exact ih s1 (hist ++ [op]) h2 pre2 hw v p post s0 e t hrest hpre hd
          (by rw [List.append_assoc]; exact hsub)

theorem hardwareInterval_ordered {cfg : Config} {hw : CompleteEnv} {e : entry_t} {t : Nat}
    (hmono : ∀ a b, a ≤ b → cfg.SysclockToNs a ≤ cfg.SysclockToNs b)
    (ht : e.record.dispatch = t) (h : hardwareInterval cfg hw e t = true) :
    ordered_record (stampEntry cfg hw e e).record := by
  simp only [hardwareInterval, Bool.and_eq_true, decide_eq_true_eq] at h
  subst ht
  exact ⟨h.1.1, hmono _ _ h.1.2, h.2⟩

/-- Witness of C5: a callback that fires on the admitted, not yet enabled entry
spins in the unchanged state; in the run `wOpsTwice` the call made by the
callback uses the handler and argument of the last `Enable*`, 88 and 800. -/
theorem no_early_delivery_witness :
    (exec (configured id) (init 0 wMem) wOpsEarly = some wStateEarly ∧
      Handler (configured id) wHw 4 1 wStateEarly = .spin wStateEarly ∧
      step (configured id) wStateEarly (Op.handler wHw 4 1) = none) ∧
    (exec (configured id) (init 0 wMem) wOpsTwice = some wStateTwice ∧
      wStateTwice.trace = [Event.call 1 0 88 4 800, Event.del 1 0] ∧
      ∃ evs, wStateTwice.trace = wStateTwice5.trace ++ evs ∧
        ∀ p i fn v a, Event.call p i fn v a ∈ evs →
          fn ≠ 0 ∧ published (wOpsTwice.take 5) p = some (fn, a) ∧
          ∃ e ∈ wStateTwice5.sig_list_, e.ptr = p ∧ e.index = i ∧ e.handler = fn ∧ e.arg = a) :=
  ⟨⟨rfl,
     (no_early_delivery (configured id) 0 wMem wOpsEarly wStateEarly (Or.inl rfl) rfl).1 wHw 4
       (fresh ⟨1, 100, true, 101, true⟩ 7 10 0) (by decide) rfl⟩,
   ⟨rfl, by decide,
     (no_early_delivery (configured id) 0 wMem wOpsTwice wStateTwice (Or.inl rfl) rfl).2.2.1
       (wOpsTwice.take 5) (Op.handler wHw 4 1) [] wStateTwice5 wStateTwice rfl rfl rfl⟩⟩

end proxy
